import Mathlib

set_option maxRecDepth 8000
set_option maxHeartbeats 1600000

/-!
Verification of the symbolic-differentiation calculator
(tokenizer → recursive-descent parser → expression tree → differentiate /
evaluate → simplifier).

The Python sources are embedded shallowly:

* `src/nodes.py` — `Number` / `Variable` / `BinaryOp` become the inductive
  `Expr`; `evaluate`, `differentiate` and `__str__` are translated directly.
* `src/tokenizer.py` — `Tokenizer.tokenize` and its helpers become
  `tokenizeLoop` / `parseNumberChars` / `parseFloat` over `List Char`.
* `src/parser.py` — the recursive-descent parser becomes the
  `parseAddition`/`parseMultiplication`/`parseExponentiation`/`parsePrimary`
  family; a fuel argument replaces Python's implicit termination by token
  consumption (the fuel chosen by `Parser.parse` is proved sufficient for
  the parses verified here, see `Parser.parse_round`).
* `src/simplifier.py` — `Simplifier.simplify` / `_simplify_binary_op`.

Numbers: the Python code computes with IEEE float64.  The development has two
layers.  The main layer idealises values as exact rationals ℚ: every
arithmetic step the code performs is mirrored by the same operation on ℚ,
which is faithful whenever no float rounding, overflow to `±inf`, or `nan`
arises; Python's `**` raises `ZeroDivisionError` exactly when the base is 0
and the exponent negative, and the layer reproduces that.  For a non-integral
exponent Python produces an irrational or complex value which ℚ cannot hold;
`pypow` then uses the integer part of the exponent, and no theorem below
depends on the value produced in that case: the proofs only use
`pypow a 1 = a`, `pypow a 0 = 1`, and the fact that the same `pypow` is
applied by `evaluate` and by the simplifier's constant fold.  A second, float
layer (`PyFloat` / `evaluateF` / `simplifyF`, after the parser development)
models exactly what the exact layer erases: saturation of `+ - * /` to
`±inf`, `nan` propagation (`inf * 0 = nan`), and the `OverflowError` that
float `**` raises on an out-of-range result.  Claims whose truth turns on
those behaviours are settled in that layer.

Exceptions: Python raises `ValueError` (with distinct messages), the built-in
`ZeroDivisionError` and `OverflowError`, and `NotImplementedError`.  These
become the constructors of `Err`.
-/

/-- The five operator symbols of `BinaryOp.operator` (`src/nodes.py`); the
data model fixes `operator ∈ {+,-,*,/,^}`, so it is embedded as a closed
enumeration. -/
inductive Op where
  | add | sub | mul | div | pow
  deriving DecidableEq, Repr

/-- The operator character stored by the Python `BinaryOp` node. -/
def Op.char : Op → Char
  | .add => '+'
  | .sub => '-'
  | .mul => '*'
  | .div => '/'
  | .pow => '^'

/-- The expression tree of `src/nodes.py`: `Number(value)`, `Variable(name)`
(single character, per the lexer), `BinaryOp(left, operator, right)`. -/
inductive Expr where
  | num (value : ℚ)
  | var (name : Char)
  | binOp (left : Expr) (op : Op) (right : Expr)
  deriving DecidableEq, Repr

/-- The exceptions raised by the Python code.
`undefinedVariable` = `ValueError("Variable '<n>' not defined")`,
`divisionByZero` = `ValueError("Division by zero")` (the guarded `/` branch of
`evaluate`), `zeroDivisionError` = Python's built-in `ZeroDivisionError`
(raised by an unguarded `/` or `**` on floats), `overflowError` = Python's
built-in `OverflowError` (raised by float `**` when a finite result
overflows; reachable only in the float layer, whose `powF` models it),
`unsupportedOperation` = `NotImplementedError` from the power rule, and the
lexer/parser errors.  `fuelExhausted` is a model artifact of the parser's
fuel counter; the fuel `Parser.parse` supplies is proved sufficient on every
parse verified here (`Parser.parse_round`). -/
inductive Err where
  | undefinedVariable (name : Char)
  | divisionByZero
  | zeroDivisionError
  | overflowError
  | unsupportedOperation
  | invalidCharacter (c : Char)
  | invalidNumber (s : String)
  | parseError (msg : String)
  | fuelExhausted
  deriving DecidableEq, Repr

instance {ε α : Type} [DecidableEq ε] [DecidableEq α] : DecidableEq (Except ε α) :=
  fun x y =>
    match x, y with
    | .ok a, .ok b => if h : a = b then .isTrue (by rw [h]) else .isFalse (by simp [h])
    | .error a, .error b => if h : a = b then .isTrue (by rw [h]) else .isFalse (by simp [h])
    | .ok _, .error _ => .isFalse (by simp)
    | .error _, .ok _ => .isFalse (by simp)

/-- Python's float `a ** b` as used in `evaluate` and in the simplifier's
constant fold.  For the integral exponents occurring in the claims this is the
exact value; the caller separately reproduces the `ZeroDivisionError` raised
when `a = 0` and `b < 0` (see the header comment on non-integral
exponents). -/
def pypow (a b : ℚ) : ℚ := a ^ b.num

/-- Variable bindings: the `variables` dictionary of `evaluate`. -/
abbrev Bindings := List (Char × ℚ)

/-- The arithmetic dispatch of `BinaryOp.evaluate` (`src/nodes.py`, lines
222-235) in the exact layer: `+ - *` are total, `/` raises
`ValueError("Division by zero")` when the right value is exactly 0, and `**`
raises Python's `ZeroDivisionError` when the base is 0 and the exponent
negative.  Exact in the absence of float saturation; the `±inf` / `nan`
outcomes of `+ - * /` and the `OverflowError` of `**` are modelled by the
float layer's `evaluateF`. -/
def evalOp (op : Op) (lv rv : ℚ) : Except Err ℚ :=
  match op with
  | .add => .ok (lv + rv)
  | .sub => .ok (lv - rv)
  | .mul => .ok (lv * rv)
  | .div => if rv = 0 then .error .divisionByZero else .ok (lv / rv)
  | .pow => if lv = 0 ∧ rv < 0 then .error .zeroDivisionError else .ok (pypow lv rv)

/-- `Node.evaluate` (`src/nodes.py`): `Number` returns its value, `Variable`
looks its name up in the bindings (raising `ValueError` when absent), and
`BinaryOp` evaluates both children left-to-right before dispatching on the
operator. -/
def evaluate : Expr → Bindings → Except Err ℚ
  | .num v, _ => .ok v
  | .var n, b =>
      match b.lookup n with
      | some v => .ok v
      | none => .error (.undefinedVariable n)
  | .binOp l op r, b => do
      let lv ← evaluate l b
      let rv ← evaluate r b
      evalOp op lv rv

/-- `Node.differentiate` (`src/nodes.py`): the constant, variable, sum,
difference, product and quotient rules, and the power rule restricted to a
literal `Number` exponent (`f_prime` is computed before the `n == 1` /
`n == 0` tests, exactly as in the source); a non-`Number` exponent raises
`NotImplementedError`. -/
def differentiate : Expr → Char → Except Err Expr
  | .num _, _ => .ok (.num 0)
  | .var n, v => .ok (if n = v then .num 1 else .num 0)
  | .binOp l op r, v =>
      match op with
      | .add => do
          let dl ← differentiate l v
          let dr ← differentiate r v
          .ok (.binOp dl .add dr)
      | .sub => do
          let dl ← differentiate l v
          let dr ← differentiate r v
          .ok (.binOp dl .sub dr)
      | .mul => do
          let dl ← differentiate l v
          let dr ← differentiate r v
          .ok (.binOp (.binOp dl .mul r) .add (.binOp l .mul dr))
      | .div => do
          let dl ← differentiate l v
          let dr ← differentiate r v
          .ok (.binOp (.binOp (.binOp dl .mul r) .sub (.binOp l .mul dr))
                 .div (.binOp r .pow (.num 2)))
      | .pow =>
          match r with
          | .num n => do
              let fp ← differentiate l v
              if n = 1 then .ok fp
              else if n = 0 then .ok (.num 0)
              else .ok (.binOp (.binOp (.num n) .mul (.binOp l .pow (.num (n - 1))))
                          .mul fp)
          | _ => .error .unsupportedOperation

/-- `str(Number)` / `str(Variable)` payload helper: the value of an `Expr`
when it is a `Number` literal (`isinstance(e, Number)` tests). -/
def numVal? : Expr → Option ℚ
  | .num v => some v
  | _ => none

namespace Simplifier

/-- `Simplifier._simplify_binary_op` (`src/simplifier.py`, lines 74-155) in
the exact layer, applied to already-simplified children.  The branches are in
source order.  The constant folds for `/` and `^` perform Python float
division / power and hence raise `ZeroDivisionError` on a zero divisor
(nonzero numerator) or a zero base with negative exponent.  As with `evalOp`,
the float-level outcomes of the folds — saturation to `±inf` / `nan` and the
`OverflowError` of `^` — are modelled by the float layer's
`simplifyBinOpF`. -/
def simplifyBinOp (left : Expr) (op : Op) (right : Expr) : Except Err Expr :=
  match op with
  | .add =>
      if numVal? right = some 0 then .ok left
      else if numVal? left = some 0 then .ok right
      else
        match numVal? left, numVal? right with
        | some a, some b => .ok (.num (a + b))
        | _, _ => .ok (.binOp left .add right)
  | .sub =>
      if numVal? right = some 0 then .ok left
      else if numVal? left = some 0 then .ok (.binOp (.num 0) .sub right)
      else
        match numVal? left, numVal? right with
        | some a, some b => .ok (.num (a - b))
        | _, _ => .ok (.binOp left .sub right)
  | .mul =>
      if numVal? left = some 0 ∨ numVal? right = some 0 then .ok (.num 0)
      else if numVal? right = some 1 then .ok left
      else if numVal? left = some 1 then .ok right
      else
        match numVal? left, numVal? right with
        | some a, some b => .ok (.num (a * b))
        | _, _ => .ok (.binOp left .mul right)
  | .div =>
      if numVal? right = some 1 then .ok left
      else if numVal? left = some 0 then .ok (.num 0)
      else
        match numVal? left, numVal? right with
        | some a, some b =>
            if b = 0 then .error .zeroDivisionError else .ok (.num (a / b))
        | _, _ => .ok (.binOp left .div right)
  | .pow =>
      if numVal? right = some 1 then .ok left
      else if numVal? right = some 0 then .ok (.num 1)
      else
        match numVal? left, numVal? right with
        | some a, some b =>
            if a = 0 ∧ b < 0 then .error .zeroDivisionError
            else .ok (.num (pypow a b))
        | _, _ => .ok (.binOp left .pow right)

/-- `Simplifier.simplify` (`src/simplifier.py`, lines 44-72): leaves are
returned unchanged; a `BinaryOp` first simplifies both children, then applies
`_simplify_binary_op` once (single bottom-up pass, no fixpoint loop). -/
def simplify : Expr → Except Err Expr
  | .num v => .ok (.num v)
  | .var n => .ok (.var n)
  | .binOp l op r => do
      let ls ← simplify l
      let rs ← simplify r
      simplifyBinOp ls op rs

end Simplifier

/-- The tokens of `src/tokenizer.py`: `NUMBER` (float payload), `VARIABLE`
and `OPERATOR` (single-character payload), `LPAREN`, `RPAREN`, `EOF`. -/
inductive Token where
  | number (value : ℚ)
  | varTok (name : Char)
  | opTok (c : Char)
  | lparen
  | rparen
  | eof
  deriving DecidableEq, Repr

/-- The digit-and-decimal-point scan of `Tokenizer._parse_number` (lines
144-147): greedily take characters that are digits or `.`; return the scanned
prefix and the remaining text. -/
def scanNumber : List Char → List Char × List Char
  | [] => ([], [])
  | c :: cs =>
      if c.isDigit ∨ c = '.' then
        let p := scanNumber cs
        (c :: p.1, p.2)
      else ([], c :: cs)

theorem scanNumber_rest_length (s : List Char) : (scanNumber s).2.length ≤ s.length := by
  induction s with
  | nil => simp [scanNumber]
  | cons c cs ih =>
      by_cases h : c.isDigit ∨ c = '.'
      · simpa [scanNumber, h] using Nat.le_succ_of_le ih
      · simp [scanNumber, h]

/-- `Tokenizer._parse_number` (lines 123-147), up to the final float
conversion: an optional leading `-` (the branch at lines 139-141 — unreachable
from `tokenize`, which only enters the number branch on a digit or `.`, but
embedded for fidelity) followed by the digit/point scan. -/
def parseNumberChars (s : List Char) : List Char × List Char :=
  if s.head? = some '-' then
    let p := scanNumber s.tail
    ('-' :: p.1, p.2)
  else scanNumber s

theorem parseNumberChars_not_minus {s : List Char} (h : s.head? ≠ some '-') :
    parseNumberChars s = scanNumber s := by
  simp [parseNumberChars, h]

/-- The numeric value of a digit string, most significant digit first
(`digitsVal ['4','2'] = 42`). -/
def digitsVal (ds : List Char) : ℕ :=
  ds.foldl (fun a c => 10 * a + (c.toNat - 48)) 0

def allDigits (ds : List Char) : Bool := ds.all (·.isDigit)

/-- Python's `float(number_str)` (line 151), restricted to the strings the
scanner can produce: an optional `-` sign followed by digits and decimal
points.  Accepts `"12"`, `"1.5"`, `"5."`, `".5"`; rejects `""`, `"."`,
`"1.2.3"` (two points), mirroring `float()` on that sublanguage.  The value is
exact: `intpart + fracpart / 10^len(fracpart)`. -/
def parseFloat (s : List Char) : Option ℚ :=
  let neg := s.head? = some '-'
  let t := if neg then s.tail else s
  let ip := t.takeWhile (· ≠ '.')
  let rest := t.dropWhile (· ≠ '.')
  let fr := rest.tail
  if rest ≠ [] ∧ fr.contains '.' then none
  else if ¬ (allDigits ip ∧ allDigits fr) then none
  else if ip = [] ∧ fr = [] then none
  else
    let v : ℚ := (digitsVal ip : ℚ) + (digitsVal fr : ℚ) / 10 ^ fr.length
    some (if neg then -v else v)

/-- The `in '+-*/^'` membership test of the tokenizer's operator branch. -/
def opChars : List Char := ['+', '-', '*', '/', '^']

/-- The scanning loop of `Tokenizer.tokenize` (`src/tokenizer.py`, lines
92-117), branch for branch and in source order: skip whitespace; a digit or
`.` starts a number (so a `-` never does — it falls through to the operator
branch); a letter yields exactly one single-character `VARIABLE` token; one of
`+-*/^` yields an `OPERATOR` token; parentheses yield `LPAREN`/`RPAREN`; any
other character raises `ValueError`. -/
def tokenizeLoop : List Char → Except Err (List Token)
  | [] => .ok []
  | c :: cs =>
      if c.isWhitespace then tokenizeLoop cs
      else if h : c.isDigit ∨ c = '.' then
        let p := parseNumberChars (c :: cs)
        match parseFloat p.1 with
        | some v => (tokenizeLoop p.2).map (Token.number v :: ·)
        | none => .error (.invalidNumber (String.mk p.1))
      else if c.isAlpha then (tokenizeLoop cs).map (Token.varTok c :: ·)
      else if c ∈ opChars then (tokenizeLoop cs).map (Token.opTok c :: ·)
      else if c = '(' then (tokenizeLoop cs).map (Token.lparen :: ·)
      else if c = ')' then (tokenizeLoop cs).map (Token.rparen :: ·)
      else .error (.invalidCharacter c)
termination_by s => s.length
decreasing_by
  · simp
  · have hne : (c :: cs).head? ≠ some '-' := by
      rcases h with h | h
      · simp only [List.head?_cons, ne_eq, Option.some.injEq]
        intro hc; subst hc; simp at h
      · subst h; simp
    have : (parseNumberChars (c :: cs)).2.length ≤ cs.length := by
      rw [parseNumberChars_not_minus hne]
      simpa [scanNumber, h] using scanNumber_rest_length cs
    have hlen : (c :: cs).length = cs.length + 1 := rfl
    omega
  · simp
  · simp
  · simp
  · simp

/-- `tokenize` (`src/tokenizer.py`): run the scan loop and append the `EOF`
sentinel.  (`text.strip()` in the source is observationally redundant: the
loop already skips every whitespace character.) -/
def tokenize (text : String) : Except Err (List Token) :=
  (tokenizeLoop text.data).map (· ++ [Token.eof])

namespace Parser

/-- `Parser._is_at_end` (`src/parser.py`, lines 219-227): the cursor is past
the end or sits on the `EOF` sentinel. -/
def isAtEnd : List Token → Bool
  | [] => true
  | .eof :: _ => true
  | _ => false

/-!
The recursive-descent functions `_parse_addition`, `_parse_multiplication`,
`_parse_exponentiation`, `_parse_primary` (`src/parser.py`, lines 83-159).
The Python cursor over the token list is modelled by passing the remaining
suffix of tokens and returning the unconsumed suffix; `_match` becomes direct
pattern matching on the head token (at `EOF`, `_match` always answers false,
which is the catch-all case of the loop functions).  The `ℕ` argument is
fuel — a model artifact standing in for Python's untracked recursion: every
genuine recursive descent consumes one unit, and `Parser.parse` supplies fuel
proved sufficient on the parses verified here (`parse_round` below; the
concrete claims evaluate with their concrete fuel).  The `while` loops of the
left-associative levels become the `...Loop` functions, folding
`BinaryOp(acc, op, next)` exactly as the source does.
-/

mutual

/-- `_parse_addition`: `addition → multiplication (('+'|'-') multiplication)*`,
folding left. -/
def parseAddition : ℕ → List Token → Except Err (Expr × List Token)
  | 0, _ => .error .fuelExhausted
  | f + 1, ts => do
      let p ← parseMultiplication f ts
      parseAdditionLoop f p.1 p.2

def parseAdditionLoop : ℕ → Expr → List Token → Except Err (Expr × List Token)
  | 0, _, _ => .error .fuelExhausted
  | f + 1, acc, ts =>
      match ts with
      | .opTok '+' :: rest => do
          let p ← parseMultiplication f rest
          parseAdditionLoop f (.binOp acc .add p.1) p.2
      | .opTok '-' :: rest => do
          let p ← parseMultiplication f rest
          parseAdditionLoop f (.binOp acc .sub p.1) p.2
      | _ => .ok (acc, ts)

/-- `_parse_multiplication`:
`multiplication → exponentiation (('*'|'/') exponentiation)*`, folding left. -/
def parseMultiplication : ℕ → List Token → Except Err (Expr × List Token)
  | 0, _ => .error .fuelExhausted
  | f + 1, ts => do
      let p ← parseExponentiation f ts
      parseMultiplicationLoop f p.1 p.2

def parseMultiplicationLoop : ℕ → Expr → List Token → Except Err (Expr × List Token)
  | 0, _, _ => .error .fuelExhausted
  | f + 1, acc, ts =>
      match ts with
      | .opTok '*' :: rest => do
          let p ← parseExponentiation f rest
          parseMultiplicationLoop f (.binOp acc .mul p.1) p.2
      | .opTok '/' :: rest => do
          let p ← parseExponentiation f rest
          parseMultiplicationLoop f (.binOp acc .div p.1) p.2
      | _ => .ok (acc, ts)

/-- `_parse_exponentiation`: `exponentiation → primary ('^' exponentiation)?`,
recursing on itself for the right operand (right-associative). -/
def parseExponentiation : ℕ → List Token → Except Err (Expr × List Token)
  | 0, _ => .error .fuelExhausted
  | f + 1, ts => do
      let p ← parsePrimary f ts
      match p.2 with
      | .opTok '^' :: rest => do
          let q ← parseExponentiation f rest
          .ok (.binOp p.1 .pow q.1, q.2)
      | _ => .ok p

/-- `_parse_primary`: `primary → NUMBER | VARIABLE | '(' addition ')'`; at any
other token (or at the `EOF` sentinel, where `_peek` raises) a `ValueError` is
raised. -/
def parsePrimary : ℕ → List Token → Except Err (Expr × List Token)
  | _, .number v :: rest => .ok (.num v, rest)
  | _, .varTok c :: rest => .ok (.var c, rest)
  | 0, .lparen :: _ => .error .fuelExhausted
  | f + 1, .lparen :: rest => do
      let p ← parseAddition f rest
      match p.2 with
      | .rparen :: rest' => .ok (p.1, rest')
      | _ => .error (.parseError "Expected closing parenthesis after expression")
  | _, .eof :: _ => .error (.parseError "Unexpected end of input")
  | _, [] => .error (.parseError "Unexpected end of input")
  | _, _ => .error (.parseError "Expected number, variable, or left parenthesis")

end

/-- `Parser.parse` (`src/parser.py`, lines 57-81): reject an empty token
list, parse from the lowest precedence level, then require the cursor to sit
on the `EOF` sentinel.  The fuel `4 * length + 4` is a model artifact (see
above). -/
def parse (ts : List Token) : Except Err Expr :=
  if ts = [] then .error (.parseError "No tokens to parse")
  else do
    let p ← parseAddition (4 * ts.length + 4) ts
    if isAtEnd p.2 then .ok p.1 else .error (.parseError "Unexpected token")

end Parser

/-- `parse_expression` (`src/parser.py`, lines 230-252): tokenize, then
parse. -/
def parse_expression (text : String) : Except Err Expr := do
  Parser.parse (← tokenize text)

/-- Decimal digits of a natural number, most significant first, accumulator
style (`natDigitsAux 42 acc = '4' :: '2' :: acc`; `natDigitsAux 0 acc =
acc`). -/
def natDigitsAux : ℕ → List Char → List Char
  | 0, acc => acc
  | n + 1, acc => natDigitsAux ((n + 1) / 10) (Char.ofNat (48 + (n + 1) % 10) :: acc)
termination_by n _ => n
decreasing_by exact Nat.div_lt_self (Nat.succ_pos n) (by norm_num)

/-- Decimal digit string of a natural number (`natDigits 0 = "0"`). -/
def natDigits (n : ℕ) : List Char :=
  if n = 0 then ['0'] else natDigitsAux n []

/-- Strip trailing `'0'` characters. -/
def trimZeros (ds : List Char) : List Char :=
  (ds.reverse.dropWhile (· = '0')).reverse

/-- Left-pad with `'0'` to length `k`. -/
def padZeros (k : ℕ) (ds : List Char) : List Char :=
  List.replicate (k - ds.length) '0' ++ ds

/-- Python's `str()` on a nonnegative float value, in the plain (non-
scientific) format: integer digits, `'.'`, fractional digits with trailing
zeros dropped but at least one digit (`str(2.0) = "2.0"`, `str(0.25) =
"0.25"`).  CPython uses this format only for values that are 0 or lie in
`[1e-4, 1e16)` — outside that range `str()` switches to scientific notation
(`str(1e16) = "1e+16"`), which this definition does not model and which
`goodPM` therefore excludes.  CPython also prints the shortest digit string
that reads back (via `float()`) as the same value; under this development's
exact `float()` (`parseFloat`), a payload `q` stands for the float that reads
back as the decimal numeral of `q`, and on such payloads the
trailing-zero-trimmed numeral printed here is that shortest string.  The
scaling exponent `q.den` is always large enough when `q` has a finite
decimal expansion (every float value does); for other rationals — which no
float payload can be — the rendering is a total but meaningless stand-in. -/
def posNumChars (q : ℚ) : List Char :=
  let k := q.den
  let N := (q * 10 ^ k).num.toNat
  let fds := trimZeros (padZeros k (natDigits (N % 10 ^ k)))
  natDigits (N / 10 ^ k) ++ '.' :: (if fds = [] then ['0'] else fds)

/-- Python's `str()` on a float value (`Number.__str__`, `src/nodes.py` line
132): a `-` sign followed by the digits for negative values. -/
def numToString (q : ℚ) : String :=
  if q < 0 then "-" ++ String.mk (posNumChars (-q)) else String.mk (posNumChars q)

/-- `Node.__str__` (`src/nodes.py`): numbers via `str(value)`, variables via
their name, and `BinaryOp.__str__` (lines 314-332) which renders
`left op right` with a space around the operator and parenthesizes any child
that is itself a `BinaryOp` (unconditionally). -/
def toDisplayString : Expr → String
  | .num v => numToString v
  | .var c => String.mk [c]
  | .binOp l op r =>
      let ls := match l with
        | .binOp .. => "(" ++ toDisplayString l ++ ")"
        | _ => toDisplayString l
      let rs := match r with
        | .binOp .. => "(" ++ toDisplayString r ++ ")"
        | _ => toDisplayString r
      ls ++ " " ++ String.mk [op.char] ++ " " ++ rs
/-! Small rewriting helpers for `Except` and the evaluator. -/

@[simp] theorem okBind {ε α β : Type} (a : α) (f : α → Except ε β) :
    (Except.ok a >>= f) = f a := rfl

@[simp] theorem errorBind {ε α β : Type} (e : ε) (f : α → Except ε β) :
    ((Except.error e : Except ε α) >>= f) = .error e := rfl

@[simp] theorem evaluate_num (v : ℚ) (b : Bindings) : evaluate (.num v) b = .ok v := rfl

theorem evaluate_binOp (l : Expr) (op : Op) (r : Expr) (b : Bindings) :
    evaluate (.binOp l op r) b =
      (evaluate l b >>= fun lv => evaluate r b >>= fun rv => evalOp op lv rv) := rfl

theorem numVal?_eq_some {e : Expr} {a : ℚ} : numVal? e = some a ↔ e = .num a := by
  cases e <;> simp [numVal?]

@[simp] theorem pypow_one (a : ℚ) : pypow a 1 = a := by
  simp [pypow]

@[simp] theorem pypow_zero (a : ℚ) : pypow a 0 = 1 := by
  simp [pypow]

namespace Simplifier

theorem simplify_binOp_eq (l : Expr) (op : Op) (r : Expr) :
    simplify (.binOp l op r) =
      (simplify l >>= fun ls => simplify r >>= fun rs => simplifyBinOp ls op rs) := rfl

/-- Core of claim C1: one `_simplify_binary_op` step preserves the evaluated
value, assuming the (already simplified) children evaluate to the same values
as the original children did. -/
theorem simplifyBinOp_preserves {ls rs : Expr} {op : Op} {b : Bindings} {lv rv v : ℚ}
    (hl : evaluate ls b = .ok lv) (hr : evaluate rs b = .ok rv)
    (hop : evalOp op lv rv = .ok v) :
    ∃ u, simplifyBinOp ls op rs = .ok u ∧ evaluate u b = .ok v := by
  have numL : ∀ a : ℚ, numVal? ls = some a → lv = a := by
    intro a ha
    rw [numVal?_eq_some.mp ha] at hl
    simpa using hl.symm
  have numR : ∀ a : ℚ, numVal? rs = some a → rv = a := by
    intro a ha
    rw [numVal?_eq_some.mp ha] at hr
    simpa using hr.symm
  cases op with
  | add =>
      have hv : v = lv + rv := by simpa [evalOp] using hop.symm
      simp only [simplifyBinOp]
      split_ifs with h1 h2
      · exact ⟨ls, rfl, by rw [hl, hv, numR 0 h1]; norm_num⟩
      · exact ⟨rs, rfl, by rw [hr, hv, numL 0 h2]; norm_num⟩
      · split
        · next a c hL hR =>
            exact ⟨_, rfl, by simp [hv, numL a hL, numR c hR]⟩
        · next =>
            exact ⟨_, rfl, by simp [evaluate_binOp, hl, hr, evalOp, hv]⟩
  | sub =>
      have hv : v = lv - rv := by simpa [evalOp] using hop.symm
      simp only [simplifyBinOp]
      split_ifs with h1 h2
      · exact ⟨ls, rfl, by rw [hl, hv, numR 0 h1]; norm_num⟩
      · refine ⟨.binOp (.num 0) .sub rs, rfl, ?_⟩
        simp [evaluate_binOp, hr, evalOp, hv, numL 0 h2]
      · split
        · next a c hL hR =>
            exact ⟨_, rfl, by simp [hv, numL a hL, numR c hR]⟩
        · next =>
            exact ⟨_, rfl, by simp [evaluate_binOp, hl, hr, evalOp, hv]⟩
  | mul =>
      have hv : v = lv * rv := by simpa [evalOp] using hop.symm
      simp only [simplifyBinOp]
      split_ifs with h0 h1 h2
      · refine ⟨.num 0, rfl, ?_⟩
        rcases h0 with h0 | h0
        · simp [hv, numL 0 h0]
        · simp [hv, numR 0 h0]
      · exact ⟨ls, rfl, by rw [hl, hv, numR 1 h1]; norm_num⟩
      · exact ⟨rs, rfl, by rw [hr, hv, numL 1 h2]; norm_num⟩
      · split
        · next a c hL hR =>
            exact ⟨_, rfl, by simp [hv, numL a hL, numR c hR]⟩
        · next =>
            exact ⟨_, rfl, by simp [evaluate_binOp, hl, hr, evalOp, hv]⟩
  | div =>
      have hrv : rv ≠ 0 := by
        intro h0
        rw [h0] at hop
        simp [evalOp] at hop
      have hv : v = lv / rv := by
        rw [evalOp] at hop
        simp only [if_neg hrv] at hop
        simpa using hop.symm
      simp only [simplifyBinOp]
      split_ifs with h1 h2
      · exact ⟨ls, rfl, by rw [hl, hv, numR 1 h1]; norm_num⟩
      · refine ⟨.num 0, rfl, ?_⟩
        simp [hv, numL 0 h2]
      · split
        · next a c hL hR =>
            have hc : c ≠ 0 := by rw [← numR c hR]; exact hrv
            exact ⟨.num (a / c), by simp [if_neg hc],
              by simp [hv, numL a hL, numR c hR]⟩
        · next =>
            exact ⟨_, rfl, by simp [evaluate_binOp, hl, hr, evalOp, if_neg hrv, hv]⟩
  | pow =>
      have hcond : ¬(lv = 0 ∧ rv < 0) := by
        intro hc
        rw [evalOp] at hop
        simp [if_pos hc] at hop
      have hv : v = pypow lv rv := by
        rw [evalOp] at hop
        simp only [if_neg hcond] at hop
        simpa using hop.symm
      simp only [simplifyBinOp]
      split_ifs with h1 h2
      · exact ⟨ls, rfl, by rw [hl, hv, numR 1 h1]; simp⟩
      · refine ⟨.num 1, rfl, ?_⟩
        rw [hv, numR 0 h2]
        simp
      · split
        · next a c hL hR =>
            have hc : ¬(a = 0 ∧ c < 0) := by
              rw [← numL a hL, ← numR c hR]
              exact hcond
            exact ⟨.num (pypow a c), by simp [if_neg hc],
              by simp [hv, numL a hL, numR c hR]⟩
        · next =>
            exact ⟨_, rfl, by simp [evaluate_binOp, hl, hr, evalOp, if_neg hcond, hv]⟩

/-- Value preservation of the full bottom-up pass (claim C1): whenever the
input tree evaluates successfully, `simplify` succeeds and its output
evaluates to the same value under the same bindings. -/
theorem simplify_preserves :
    ∀ {t : Expr} {b : Bindings} {v : ℚ}, evaluate t b = .ok v →
      ∃ t', simplify t = .ok t' ∧ evaluate t' b = .ok v := by
  intro t
  induction t with
  | num a => exact fun h => ⟨.num a, rfl, h⟩
  | var n => exact fun h => ⟨.var n, rfl, h⟩
  | binOp l op r ihl ihr =>
      intro b v h
      rw [evaluate_binOp] at h
      rcases hL : evaluate l b with eL | lv
      · rw [hL] at h; simp at h
      rw [hL] at h; rw [okBind] at h
      rcases hR : evaluate r b with eR | rv
      · rw [hR] at h; simp at h
      rw [hR] at h; rw [okBind] at h
      rcases ihl hL with ⟨ls, hls, hlev⟩
      rcases ihr hR with ⟨rs, hrs, hrev⟩
      rcases simplifyBinOp_preserves hlev hrev h with ⟨u, hu, huev⟩
      exact ⟨u, by rw [simplify_binOp_eq, hls, okBind, hrs, okBind, hu], huev⟩

/-- A `_simplify_binary_op` result built from simplify-stable children is
itself simplify-stable: re-simplifying it returns it unchanged. -/
theorem simplifyBinOp_stable {l r u : Expr} {op : Op}
    (hl : simplify l = .ok l) (hr : simplify r = .ok r)
    (h : simplifyBinOp l op r = .ok u) : simplify u = .ok u := by
  have h0 := h
  cases op with
  | add =>
      simp only [simplifyBinOp] at h
      split_ifs at h with h1 h2
      · injection h with h; subst h; exact hl
      · injection h with h; subst h; exact hr
      · split at h
        · next => injection h with h; subst h; rfl
        · next =>
            injection h with h; subst h
            rw [simplify_binOp_eq, hl, okBind, hr, okBind]
            exact h0
  | sub =>
      simp only [simplifyBinOp] at h
      split_ifs at h with h1 h2
      · injection h with h; subst h; exact hl
      · injection h with h; subst h
        rw [simplify_binOp_eq,
          show simplify (Expr.num 0) = Except.ok (Expr.num 0) from rfl,
          okBind, hr, okBind]
        simp only [simplifyBinOp, h1, if_false]
        simp [numVal?]
      · split at h
        · next => injection h with h; subst h; rfl
        · next =>
            injection h with h; subst h
            rw [simplify_binOp_eq, hl, okBind, hr, okBind]
            exact h0
  | mul =>
      simp only [simplifyBinOp] at h
      split_ifs at h with h0' h1 h2
      · injection h with h; subst h; rfl
      · injection h with h; subst h; exact hl
      · injection h with h; subst h; exact hr
      · split at h
        · next => injection h with h; subst h; rfl
        · next =>
            injection h with h; subst h
            rw [simplify_binOp_eq, hl, okBind, hr, okBind]
            exact h0
  | div =>
      simp only [simplifyBinOp] at h
      split_ifs at h with h1 h2
      · injection h with h; subst h; exact hl
      · injection h with h; subst h; rfl
      · split at h
        · next =>
            split_ifs at h
            injection h with h; subst h; rfl
        · next =>
            injection h with h; subst h
            rw [simplify_binOp_eq, hl, okBind, hr, okBind]
            exact h0
  | pow =>
      simp only [simplifyBinOp] at h
      split_ifs at h with h1 h2
      · injection h with h; subst h; exact hl
      · injection h with h; subst h; rfl
      · split at h
        · next =>
            split_ifs at h
            injection h with h; subst h; rfl
        · next =>
            injection h with h; subst h
            rw [simplify_binOp_eq, hl, okBind, hr, okBind]
            exact h0

/-- Every successful `simplify` output is a fixed point of `simplify` (the
content of claim C5: the single bottom-up pass already reaches a fixed
point). -/
theorem simplify_stable : ∀ {t t' : Expr}, simplify t = .ok t' → simplify t' = .ok t' := by
  intro t
  induction t with
  | num a => intro t' h; injection h with h; subst h; rfl
  | var n => intro t' h; injection h with h; subst h; rfl
  | binOp l op r ihl ihr =>
      intro t' h
      rw [simplify_binOp_eq] at h
      rcases hL : simplify l with e | ls
      · rw [hL] at h; simp at h
      rw [hL, okBind] at h
      rcases hR : simplify r with e | rs
      · rw [hR] at h; simp at h
      rw [hR, okBind] at h
      exact simplifyBinOp_stable (ihl hL) (ihr hR) h

/-- For the three operators whose rules never fold a division or power,
`_simplify_binary_op` always succeeds. -/
theorem simplifyBinOp_pm_ok (l r : Expr) (op : Op)
    (hop : op = .add ∨ op = .sub ∨ op = .mul) :
    ∃ u, simplifyBinOp l op r = .ok u := by
  rcases hop with rfl | rfl | rfl <;>
    (simp only [simplifyBinOp]; split_ifs <;> (try split) <;> exact ⟨_, rfl⟩)

end Simplifier

/-- Trees whose operators avoid `/` and `^` entirely. -/
def noDivPow : Expr → Bool
  | .num _ => true
  | .var _ => true
  | .binOp l op r =>
      (match op with
       | .add => true
       | .sub => true
       | .mul => true
       | .div => false
       | .pow => false) && noDivPow l && noDivPow r

/-- On `/`- and `^`-free trees, `simplify` always succeeds. -/
theorem simplify_total_of_noDivPow : ∀ {t : Expr},
    noDivPow t = true → ∃ t', Simplifier.simplify t = .ok t' := by
  intro t
  induction t with
  | num a => exact fun _ => ⟨.num a, rfl⟩
  | var n => exact fun _ => ⟨.var n, rfl⟩
  | binOp l op r ihl ihr =>
      intro h
      simp only [noDivPow, Bool.and_eq_true] at h
      obtain ⟨⟨hop, hl⟩, hr⟩ := h
      obtain ⟨ls, hls⟩ := ihl hl
      obtain ⟨rs, hrs⟩ := ihr hr
      have hop' : op = .add ∨ op = .sub ∨ op = .mul := by
        cases op <;> simp_all
      obtain ⟨u, hu⟩ := Simplifier.simplifyBinOp_pm_ok ls rs op hop'
      exact ⟨u, by rw [Simplifier.simplify_binOp_eq, hls, okBind, hrs, okBind, hu]⟩

/-- A variable absent from the bindings raises
`ValueError("Variable ... not defined")`. -/
theorem evaluate_var_absent {n : Char} {b : Bindings} (h : b.lookup n = none) :
    evaluate (.var n) b = .error (.undefinedVariable n) := by
  simp [evaluate, h]

/-- A `/` node whose right side evaluates to exactly 0 (and whose left side
evaluates) raises `ValueError("Division by zero")`. -/
theorem evaluate_div_zero {l r : Expr} {b : Bindings} {lv : ℚ}
    (hl : evaluate l b = .ok lv) (hr : evaluate r b = .ok 0) :
    evaluate (.binOp l .div r) b = .error .divisionByZero := by
  rw [evaluate_binOp, hl, okBind, hr, okBind]
  simp [evalOp]

/-- A `^` node whose base evaluates to exactly 0 with a negative evaluated
exponent raises Python's unguarded `ZeroDivisionError` from `**`. -/
theorem evaluate_pow_zero_neg {l r : Expr} {b : Bindings} {rv : ℚ}
    (hl : evaluate l b = .ok 0) (hr : evaluate r b = .ok rv) (hneg : rv < 0) :
    evaluate (.binOp l .pow r) b = .error .zeroDivisionError := by
  rw [evaluate_binOp, hl, okBind, hr, okBind]
  simp [evalOp, hneg]

/-- Trees containing at least one `/` node. -/
def containsDiv : Expr → Bool
  | .num _ => false
  | .var _ => false
  | .binOp l op r =>
      (match op with
       | .div => true
       | _ => false) || containsDiv l || containsDiv r

/-- The `DivisionByZero` `ValueError` can only originate in a `/` node: a
tree without `/` never raises it. -/
theorem evaluate_divByZero_containsDiv : ∀ {t : Expr} {b : Bindings},
    evaluate t b = .error .divisionByZero → containsDiv t = true := by
  intro t
  induction t with
  | num v => intro b h; simp [evaluate] at h
  | var n =>
      intro b h
      rcases hn : b.lookup n with _ | v <;> simp [evaluate, hn] at h
  | binOp l op r ihl ihr =>
      intro b h
      rw [evaluate_binOp] at h
      rcases hL : evaluate l b with eL | lv
      · rw [hL, errorBind] at h
        injection h with h
        simp [containsDiv, ihl (hL.trans (by rw [h]))]
      rw [hL, okBind] at h
      rcases hR : evaluate r b with eR | rv
      · rw [hR, errorBind] at h
        injection h with h
        simp [containsDiv, ihr (hR.trans (by rw [h]))]
      rw [hR, okBind] at h
      cases op with
      | add => simp [evalOp] at h
      | sub => simp [evalOp] at h
      | mul => simp [evalOp] at h
      | div => simp [containsDiv]
      | pow =>
          by_cases h0 : lv = 0 ∧ rv < 0 <;> simp [evalOp, h0] at h

/-- Trees containing no `^` node. -/
def powFree : Expr → Bool
  | .num _ => true
  | .var _ => true
  | .binOp l op r =>
      (match op with
       | .pow => false
       | _ => true) && powFree l && powFree r

/-- `differentiate` is total over `Number`, `Variable` and the `+ - * /`
operators: it succeeds on every `^`-free tree. -/
theorem differentiate_total_of_powFree : ∀ {t : Expr},
    powFree t = true → ∀ v : Char, ∃ d, differentiate t v = .ok d := by
  intro t
  induction t with
  | num a => exact fun _ v => ⟨.num 0, rfl⟩
  | var n => exact fun _ v => ⟨_, rfl⟩
  | binOp l op r ihl ihr =>
      intro h v
      simp only [powFree, Bool.and_eq_true] at h
      obtain ⟨⟨hop, hl⟩, hr⟩ := h
      obtain ⟨dl, hdl⟩ := ihl hl v
      obtain ⟨dr, hdr⟩ := ihr hr v
      cases op with
      | add => exact ⟨.binOp dl .add dr, by simp [differentiate, hdl, hdr]⟩
      | sub => exact ⟨.binOp dl .sub dr, by simp [differentiate, hdl, hdr]⟩
      | mul => exact ⟨.binOp (.binOp dl .mul r) .add (.binOp l .mul dr),
          by simp [differentiate, hdl, hdr]⟩
      | div => exact ⟨.binOp (.binOp (.binOp dl .mul r) .sub (.binOp l .mul dr))
            .div (.binOp r .pow (.num 2)),
          by simp [differentiate, hdl, hdr]⟩
      | pow => simp at hop

/-- The `^` rule of `differentiate` with a literal exponent `Number(n)` (the
`isinstance(self.right, Number)` branch, `src/nodes.py` lines 290-306),
given that the base differentiates to `d`. -/
theorem differentiate_pow_num (f : Expr) (n : ℚ) (v : Char) {d : Expr}
    (hf : differentiate f v = .ok d) :
    differentiate (.binOp f .pow (.num n)) v =
      .ok (if n = 1 then d
           else if n = 0 then .num 0
           else .binOp (.binOp (.num n) .mul (.binOp f .pow (.num (n - 1)))) .mul d) := by
  have heq : differentiate (.binOp f .pow (.num n)) v =
      (differentiate f v >>= fun fp =>
        if n = 1 then .ok fp
        else if n = 0 then .ok (.num 0)
        else .ok (.binOp (.binOp (.num n) .mul (.binOp f .pow (.num (n - 1)))) .mul fp)) := rfl
  rw [heq, hf, okBind]
  split_ifs <;> rfl

/-- The `^` rule with a non-`Number` exponent raises `NotImplementedError`
immediately (the base is not differentiated first). -/
theorem differentiate_pow_not_num (f r : Expr) (v : Char) (h : ∀ n : ℚ, r ≠ .num n) :
    differentiate (.binOp f .pow r) v = .error .unsupportedOperation := by
  cases r with
  | num n => exact absurd rfl (h n)
  | var c => rfl
  | binOp a o c => rfl

/-- Success of differentiating `f ^ r`: the exponent must be a `Number`
literal and (because `f_prime` is computed eagerly) `f` itself must be
differentiable. -/
theorem differentiate_pow_ok_iff (f r : Expr) (v : Char) :
    (∃ d, differentiate (.binOp f .pow r) v = .ok d) ↔
      ((∃ n : ℚ, r = .num n) ∧ ∃ d, differentiate f v = .ok d) := by
  cases r with
  | num n =>
      constructor
      · rintro ⟨d, hd⟩
        refine ⟨⟨n, rfl⟩, ?_⟩
        rcases hF : differentiate f v with e | df
        · have : differentiate (.binOp f .pow (.num n)) v = .error e := by
            have heq : differentiate (.binOp f .pow (.num n)) v =
                (differentiate f v >>= fun fp =>
                  if n = 1 then .ok fp
                  else if n = 0 then .ok (.num 0)
                  else .ok (.binOp (.binOp (.num n) .mul (.binOp f .pow (.num (n - 1))))
                        .mul fp)) := rfl
            rw [heq, hF, errorBind]
          rw [this] at hd
          cases hd
        · exact ⟨df, rfl⟩
      · rintro ⟨-, d, hd⟩
        exact ⟨_, differentiate_pow_num f n v hd⟩
  | var c =>
      constructor
      · rintro ⟨d, hd⟩
        cases hd
      · rintro ⟨⟨n, hn⟩, -⟩
        cases hn
  | binOp a o c =>
      constructor
      · rintro ⟨d, hd⟩
        cases hd
      · rintro ⟨⟨n, hn⟩, -⟩
        cases hn

/-! Definitions supporting the display/parse round-trip claim. -/

/-- The token sequence that the lexer produces from `toDisplayString t`
(proved below): each leaf yields its token, and a `BinaryOp` yields its
(parenthesized-when-compound) children around the operator token. -/
def tokensOf : Expr → List Token
  | .num q => [.number q]
  | .var c => [.varTok c]
  | .binOp l op r =>
      (match l with
       | .binOp .. => Token.lparen :: (tokensOf l ++ [Token.rparen])
       | _ => tokensOf l) ++
      (Token.opTok op.char ::
        (match r with
         | .binOp .. => Token.lparen :: (tokensOf r ++ [Token.rparen])
         | _ => tokensOf r))

/-- The wrapped form a child takes inside `tokensOf` of its parent. -/
def wrapTokens (e : Expr) : List Token :=
  match e with
  | .binOp .. => Token.lparen :: (tokensOf e ++ [Token.rparen])
  | _ => tokensOf e

/-- `q` has a finite decimal expansion (scaling by `10^q.den` suffices
whenever any power of ten does).  True of every IEEE float value, the
payloads the Python trees actually carry. -/
def finiteDecimal (q : ℚ) : Bool := (q * 10 ^ q.den).den == 1

/-- Python's `str()` renders a nonnegative float in the plain decimal —
rather than scientific — format exactly when the value is 0 or lies in
`[1e-4, 1e16)`. -/
def plainRange (q : ℚ) : Bool :=
  q == 0 || (decide ((1 : ℚ) / 10 ^ 4 ≤ q) && decide (q < 10 ^ 16))

/-- Trees built purely from `Number` / `Variable` / `+ - *` whose numeric
leaves are nonnegative with finite decimal expansions and inside the plain
`str()` format range (0 or `[1e-4, 1e16)`) — so that their `str()` rendering
is a plain decimal numeral rather than scientific notation — and whose
variable names are letters (as produced by the lexer). -/
def goodPM : Expr → Bool
  | .num q => decide (0 ≤ q) && finiteDecimal q && plainRange q
  | .var c => c.isAlpha
  | .binOp l op r =>
      (match op with
       | .add => true
       | .sub => true
       | .mul => true
       | _ => false) && goodPM l && goodPM r

/-- Node count of a tree (used only to budget parser fuel). -/
def exprSize : Expr → ℕ
  | .num _ => 1
  | .var _ => 1
  | .binOp l _ r => exprSize l + exprSize r + 1

/-- The continuation after a complete addition-level parse may not begin with
any operator token. -/
def stopAdd : List Token → Bool
  | .opTok _ :: _ => false
  | _ => true

/-- The continuation after a complete multiplication-level parse may not
begin with `*`, `/` or `^`. -/
def stopMul : List Token → Bool
  | .opTok c :: _ => c = '+' ∨ c = '-'
  | _ => true

/-- The continuation after a complete exponentiation-level parse may not
begin with `^`. -/
def stopExp : List Token → Bool
  | .opTok c :: _ => ¬ c = '^'
  | _ => true

/-- `digitsVal` running from an arbitrary accumulated prefix value. -/
def digitsValAux (a : ℕ) (ds : List Char) : ℕ :=
  ds.foldl (fun x c => 10 * x + (c.toNat - 48)) a

/-! Character-class facts used to drive the lexer through display strings. -/

theorem char_eq_of_toNat {c d : Char} (h : c.toNat = d.toNat) : c = d :=
  Char.ext (UInt32.toNat.inj h)

theorem isDigit_toNat {c : Char} (h : c.isDigit = true) :
    48 ≤ c.toNat ∧ c.toNat ≤ 57 := by
  simp only [Char.isDigit, Bool.and_eq_true, decide_eq_true_eq, Char.le_def,
    UInt32.le_def, BitVec.le_def] at h
  simp only [Char.toNat, UInt32.toNat]
  exact h

theorem isDigit_of_toNat {c : Char} (h1 : 48 ≤ c.toNat) (h2 : c.toNat ≤ 57) :
    c.isDigit = true := by
  simp only [Char.isDigit, Bool.and_eq_true, decide_eq_true_eq, Char.le_def,
    UInt32.le_def, BitVec.le_def]
  simp only [Char.toNat, UInt32.toNat] at h1 h2
  exact ⟨h1, h2⟩

theorem isAlpha_toNat {c : Char} (h : c.isAlpha = true) :
    (65 ≤ c.toNat ∧ c.toNat ≤ 90) ∨ (97 ≤ c.toNat ∧ c.toNat ≤ 122) := by
  simp only [Char.isAlpha, Char.isUpper, Char.isLower, Bool.or_eq_true, Bool.and_eq_true,
    decide_eq_true_eq, Char.le_def, UInt32.le_def, BitVec.le_def] at h
  simp only [Char.toNat, UInt32.toNat]
  exact h

theorem isWhitespace_false {c : Char} (h : 40 ≤ c.toNat) : c.isWhitespace = false := by
  simp only [Char.isWhitespace, Bool.or_eq_false_iff, decide_eq_false_iff_not]
  refine ⟨⟨⟨?_, ?_⟩, ?_⟩, ?_⟩ <;> (intro he; subst he; exact absurd h (by decide))

theorem ne_of_toNat_ne {c d : Char} (h : c.toNat ≠ d.toNat) : c ≠ d :=
  fun he => h (by rw [he])

/-- Every character of an alphabetic variable name falls through the
whitespace, number, and (trivially) no earlier branch of the scan loop. -/
theorem alpha_branch {c : Char} (h : c.isAlpha = true) :
    c.isWhitespace = false ∧ c.isDigit = false ∧ c ≠ '.' := by
  have hb := isAlpha_toNat h
  refine ⟨isWhitespace_false (by omega), ?_, ?_⟩
  · cases hd : c.isDigit
    · rfl
    · have := isDigit_toNat hd
      omega
  · apply ne_of_toNat_ne
    have : ('.' : Char).toNat = 46 := by decide
    omega

/-! Arithmetic of decimal digit strings. -/

theorem digitsVal_eq_aux (ds : List Char) : digitsVal ds = digitsValAux 0 ds := rfl

theorem digitsValAux_append (a : ℕ) (xs ys : List Char) :
    digitsValAux a (xs ++ ys) = digitsValAux (digitsValAux a xs) ys :=
  List.foldl_append ..

theorem digitsValAux_eq (ds : List Char) : ∀ a : ℕ,
    digitsValAux a ds = a * 10 ^ ds.length + digitsValAux 0 ds := by
  induction ds with
  | nil => intro a; simp [digitsValAux]
  | cons c cs ih =>
      intro a
      show digitsValAux (10 * a + (c.toNat - 48)) cs =
        a * 10 ^ (c :: cs).length + digitsValAux (10 * 0 + (c.toNat - 48)) cs
      rw [ih (10 * a + (c.toNat - 48)), ih (10 * 0 + (c.toNat - 48))]
      simp [List.length_cons]
      ring

theorem natDigitsAux_val (n : ℕ) : ∀ acc : List Char,
    digitsValAux 0 (natDigitsAux n acc) = digitsValAux n acc := by
  induction n using Nat.strong_induction_on with
  | _ n ih =>
      intro acc
      match n with
      | 0 => simp [natDigitsAux]
      | m + 1 =>
          rw [natDigitsAux]
          have hlt : (m + 1) / 10 < m + 1 := Nat.div_lt_self (Nat.succ_pos m) (by norm_num)
          rw [ih _ hlt]
          show digitsValAux ((m + 1) / 10) ((Char.ofNat (48 + (m + 1) % 10)) :: acc) =
            digitsValAux (m + 1) acc
          show digitsValAux
            (10 * ((m + 1) / 10) + ((Char.ofNat (48 + (m + 1) % 10)).toNat - 48)) acc =
            digitsValAux (m + 1) acc
          have hm : (m + 1) % 10 < 10 := Nat.mod_lt _ (by norm_num)
          have hchar : (Char.ofNat (48 + (m + 1) % 10)).toNat = 48 + (m + 1) % 10 := by
            set d := (m + 1) % 10 with hd
            interval_cases d <;> decide
          rw [hchar]
          have : 10 * ((m + 1) / 10) + (48 + (m + 1) % 10 - 48) = m + 1 := by
            omega
          rw [this]

theorem natDigits_val (n : ℕ) : digitsVal (natDigits n) = n := by
  by_cases h : n = 0
  · subst h; decide
  · rw [digitsVal_eq_aux, natDigits, if_neg h, natDigitsAux_val]
    simp [digitsValAux]

theorem natDigitsAux_bounds (n : ℕ) : ∀ acc : List Char,
    (∀ c ∈ acc, 48 ≤ c.toNat ∧ c.toNat ≤ 57) →
    ∀ c ∈ natDigitsAux n acc, 48 ≤ c.toNat ∧ c.toNat ≤ 57 := by
  induction n using Nat.strong_induction_on with
  | _ n ih =>
      intro acc hacc c hc
      match n with
      | 0 =>
          rw [natDigitsAux] at hc
          exact hacc c hc
      | m + 1 =>
          rw [natDigitsAux] at hc
          have hlt : (m + 1) / 10 < m + 1 := Nat.div_lt_self (Nat.succ_pos m) (by norm_num)
          refine ih _ hlt _ ?_ c hc
          intro d hd
          rcases List.mem_cons.mp hd with rfl | hd
          · have hm : (m + 1) % 10 < 10 := Nat.mod_lt _ (by norm_num)
            have : (Char.ofNat (48 + (m + 1) % 10)).toNat = 48 + (m + 1) % 10 := by
              set e := (m + 1) % 10 with he
              interval_cases e <;> decide
            omega
          · exact hacc d hd

theorem natDigits_bounds (n : ℕ) : ∀ c ∈ natDigits n, 48 ≤ c.toNat ∧ c.toNat ≤ 57 := by
  by_cases h : n = 0
  · subst h; intro c hc; simp [natDigits] at hc; subst hc; decide
  · rw [natDigits, if_neg h]
    exact natDigitsAux_bounds n [] (by simp)

theorem natDigitsAux_ne_nil (n : ℕ) : ∀ acc : List Char,
    (n ≠ 0 ∨ acc ≠ []) → natDigitsAux n acc ≠ [] := by
  induction n using Nat.strong_induction_on with
  | _ n ih =>
      intro acc h
      match n with
      | 0 =>
          rw [natDigitsAux]
          rcases h with h | h
          · exact absurd rfl h
          · exact h
      | m + 1 =>
          rw [natDigitsAux]
          have hlt : (m + 1) / 10 < m + 1 := Nat.div_lt_self (Nat.succ_pos m) (by norm_num)
          exact ih _ hlt _ (Or.inr (by simp))

theorem natDigits_ne_nil (n : ℕ) : natDigits n ≠ [] := by
  by_cases h : n = 0
  · subst h; decide
  · rw [natDigits, if_neg h]
    exact natDigitsAux_ne_nil n [] (Or.inl h)

theorem natDigitsAux_length (k : ℕ) : ∀ n, n < 10 ^ k → ∀ acc : List Char,
    (natDigitsAux n acc).length ≤ k + acc.length := by
  induction k with
  | zero =>
      intro n hn acc
      interval_cases n
      simp [natDigitsAux]
  | succ k ih =>
      intro n hn acc
      match n with
      | 0 => simp [natDigitsAux]
      | m + 1 =>
          rw [natDigitsAux]
          have h10 : (m + 1) / 10 < 10 ^ k :=
            Nat.div_lt_of_lt_mul (by rw [← pow_succ']; exact hn)
          have := ih ((m + 1) / 10) h10 ((Char.ofNat (48 + (m + 1) % 10)) :: acc)
          simp only [List.length_cons] at this ⊢
          omega

theorem digitsValAux_replicate (a t : ℕ) :
    digitsValAux a (List.replicate t '0') = a * 10 ^ t := by
  induction t generalizing a with
  | zero => simp [digitsValAux]
  | succ t ih =>
      rw [List.replicate_succ]
      show digitsValAux (10 * a + ('0'.toNat - 48)) (List.replicate t '0') = a * 10 ^ (t + 1)
      rw [ih]
      have : '0'.toNat - 48 = 0 := by decide
      rw [this]
      ring

theorem padZeros_val (k : ℕ) (ds : List Char) :
    digitsValAux 0 (padZeros k ds) = digitsValAux 0 ds := by
  rw [padZeros, digitsValAux_append, digitsValAux_replicate]
  simp

theorem padZeros_length {k : ℕ} {ds : List Char} (h : ds.length ≤ k) :
    (padZeros k ds).length = k := by
  simp [padZeros]
  omega

theorem padZeros_mem {k : ℕ} {ds : List Char} {c : Char} (h : c ∈ padZeros k ds) :
    c = '0' ∨ c ∈ ds := by
  rcases List.mem_append.mp h with h | h
  · exact Or.inl (List.eq_of_mem_replicate h)
  · exact Or.inr h

theorem trimZeros_decomp (ds : List Char) :
    ∃ t, ds = trimZeros ds ++ List.replicate t '0' := by
  refine ⟨(ds.reverse.takeWhile (· = '0')).length, ?_⟩
  conv_lhs => rw [← List.reverse_reverse ds,
    ← List.takeWhile_append_dropWhile (· = '0') ds.reverse]
  rw [List.reverse_append, trimZeros]
  congr 1
  have hmem : ∀ b ∈ (List.takeWhile (fun x => decide (x = '0')) ds.reverse).reverse, b = '0' := by
    intro b hb
    rw [List.mem_reverse] at hb
    have hp := List.mem_takeWhile_imp (p := fun x => decide (x = '0')) hb
    exact of_decide_eq_true hp
  rw [List.eq_replicate_of_mem hmem, List.length_reverse]

theorem trimZeros_mem {ds : List Char} {c : Char} (h : c ∈ trimZeros ds) : c ∈ ds := by
  rw [trimZeros, List.mem_reverse] at h
  rw [← List.mem_reverse]
  exact (List.dropWhile_sublist _).mem h

theorem append_replicate_zero_val (xs : List Char) (t : ℕ) :
    digitsValAux 0 (xs ++ List.replicate t '0') = digitsValAux 0 xs * 10 ^ t := by
  rw [digitsValAux_append, digitsValAux_replicate]

theorem contains_dot_false {l : List Char}
    (h : ∀ c ∈ l, 48 ≤ c.toNat ∧ c.toNat ≤ 57) : l.contains '.' = false := by
  simp only [List.contains, List.elem_eq_mem, decide_eq_false_iff_not]
  intro hm
  have hb := h _ hm
  have h46 : ('.' : Char).toNat = 46 := by decide
  omega

theorem takeWhile_append_stop {p : Char → Bool} {xs : List Char} (y : Char) (ys : List Char)
    (h : ∀ x ∈ xs, p x = true) (hy : p y = false) :
    (xs ++ y :: ys).takeWhile p = xs ∧ (xs ++ y :: ys).dropWhile p = y :: ys := by
  induction xs with
  | nil => simp [List.takeWhile, List.dropWhile, hy]
  | cons x xs ih =>
      have hx : p x = true := h x (by simp)
      have hrest := ih (fun a ha => h a (by simp [ha]))
      simp only [List.cons_append, List.takeWhile_cons, List.dropWhile_cons, hx]
      simp only [if_true, reduceIte]
      exact ⟨by rw [hrest.1], hrest.2⟩

theorem natDigits_length_le {k n : ℕ} (h1 : 1 ≤ k) (h2 : n < 10 ^ k) :
    (natDigits n).length ≤ k := by
  by_cases h : n = 0
  · subst h; simpa [natDigits] using h1
  · rw [natDigits, if_neg h]
    simpa using natDigitsAux_length k n h2 []

theorem allDigits_of_bounds {l : List Char}
    (h : ∀ c ∈ l, 48 ≤ c.toNat ∧ c.toNat ≤ 57) : allDigits l = true :=
  List.all_eq_true.mpr fun c hc => isDigit_of_toNat (h c hc).1 (h c hc).2

/-- `float()` on a plain decimal numeral `I "." F` (both parts digit
strings, `I` nonempty) recovers exactly `I + F / 10^|F|`. -/
theorem parseFloat_decimal {I F : List Char} (hI : I ≠ [])
    (hdI : ∀ c ∈ I, 48 ≤ c.toNat ∧ c.toNat ≤ 57)
    (hdF : ∀ c ∈ F, 48 ≤ c.toNat ∧ c.toNat ≤ 57) :
    parseFloat (I ++ '.' :: F) =
      some ((digitsVal I : ℚ) + (digitsVal F : ℚ) / 10 ^ F.length) := by
  obtain ⟨c, I', rfl⟩ := List.exists_cons_of_ne_nil hI
  have hc : 48 ≤ c.toNat ∧ c.toNat ≤ 57 := hdI c (by simp)
  have hcm : c ≠ '-' := by
    apply ne_of_toNat_ne
    have : ('-' : Char).toNat = 45 := by decide
    omega
  have hneg : ¬((c :: I' ++ '.' :: F).head? = some '-') := by
    simp only [List.cons_append, List.head?_cons, Option.some.injEq]
    exact hcm
  have htw := @takeWhile_append_stop (fun x => decide (x ≠ '.')) (c :: I') '.' F
    (fun x hx => by
      have hb := hdI x hx
      have h46 : ('.' : Char).toNat = 46 := by decide
      exact decide_eq_true (ne_of_toNat_ne (by omega)))
    (by decide)
  have hnotin : '.' ∉ F := by
    intro hm
    have hb := hdF _ hm
    have h46 : ('.' : Char).toNat = 46 := by decide
    omega
  simp only [parseFloat, if_neg hneg]
  rw [htw.1, htw.2]
  simp only [List.tail_cons]
  rw [if_neg (by
    rintro ⟨-, hcon⟩
    exact hnotin (List.mem_of_elem_eq_true hcon))]
  rw [if_neg (not_not_intro ⟨allDigits_of_bounds hdI, allDigits_of_bounds hdF⟩)]
  rw [if_neg (by simp)]

theorem decimal_value_eq {q : ℚ} {k N ip fp dT lt t : ℕ}
    (hq : q = (N : ℚ) / 10 ^ k) (hsplit : ip * 10 ^ k + fp = N)
    (hfpval : dT * 10 ^ t = fp) (hlen : lt + t = k) :
    (ip : ℚ) + (dT : ℚ) / 10 ^ lt = q := by
  subst hq
  rw [← hsplit, ← hfpval, ← hlen]
  have h1 : (0:ℚ) < 10 ^ lt := by positivity
  have h2 : (0:ℚ) < 10 ^ t := by positivity
  push_cast
  rw [pow_add]
  field_simp
  ring

theorem decimal_value_eq_zero {q : ℚ} {k N ip m : ℕ}
    (hq : q = (N : ℚ) / 10 ^ k) (hsplit : ip * 10 ^ k + 0 = N) :
    (ip : ℚ) + (0 : ℚ) / 10 ^ m = q := by
  subst hq
  rw [← hsplit]
  push_cast
  field_simp

/-- Structure and `float()`-roundtrip of the rendering of a nonnegative
finite-decimal value: it is a nonempty digit string, a point, a nonempty
digit string, and `parseFloat` recovers exactly the value. -/
theorem posNumChars_spec {q : ℚ} (hq : 0 ≤ q) (hfd : finiteDecimal q = true) :
    ∃ I F : List Char, posNumChars q = I ++ '.' :: F ∧ I ≠ [] ∧ F ≠ [] ∧
      (∀ c ∈ I, 48 ≤ c.toNat ∧ c.toNat ≤ 57) ∧
      (∀ c ∈ F, 48 ≤ c.toNat ∧ c.toNat ≤ 57) ∧
      parseFloat (posNumChars q) = some q := by
  have hkpos : 0 < q.den := Nat.pos_of_ne_zero (Rat.den_nz q)
  have hden : (q * 10 ^ q.den).den = 1 := by
    simpa [finiteDecimal] using hfd
  have hM : ((q * 10 ^ q.den).num : ℚ) = q * 10 ^ q.den :=
    Rat.coe_int_num_of_den_eq_one hden
  have hM0 : 0 ≤ (q * 10 ^ q.den).num := Rat.num_nonneg.mpr (by positivity)
  have hNQ : (((q * 10 ^ q.den).num.toNat : ℕ) : ℚ) = q * 10 ^ q.den := by
    rw [show (((q * 10 ^ q.den).num.toNat : ℕ) : ℚ) = (((q * 10 ^ q.den).num.toNat : ℤ) : ℚ)
      by push_cast; ring, Int.toNat_of_nonneg hM0]
    exact hM
  have hq10 : q = ((q * 10 ^ q.den).num.toNat : ℚ) / 10 ^ q.den := by
    rw [hNQ]
    field_simp
  have hNsplit : (q * 10 ^ q.den).num.toNat / 10 ^ q.den * 10 ^ q.den +
      (q * 10 ^ q.den).num.toNat % 10 ^ q.den = (q * 10 ^ q.den).num.toNat := by
    have h := Nat.div_add_mod ((q * 10 ^ q.den).num.toNat) (10 ^ q.den)
    rw [Nat.mul_comm] at h
    exact h
  have hfplt : (q * 10 ^ q.den).num.toNat % 10 ^ q.den < 10 ^ q.den :=
    Nat.mod_lt _ (by positivity)
  have hPlen : (padZeros q.den (natDigits ((q * 10 ^ q.den).num.toNat % 10 ^ q.den))).length
      = q.den :=
    padZeros_length (natDigits_length_le hkpos hfplt)
  obtain ⟨t, hT⟩ := trimZeros_decomp
    (padZeros q.den (natDigits ((q * 10 ^ q.den).num.toNat % 10 ^ q.den)))
  have hvalP : digitsValAux 0
      (padZeros q.den (natDigits ((q * 10 ^ q.den).num.toNat % 10 ^ q.den))) =
      (q * 10 ^ q.den).num.toNat % 10 ^ q.den := by
    rw [padZeros_val, ← digitsVal_eq_aux, natDigits_val]
  have hvalT : digitsValAux 0
        (trimZeros (padZeros q.den (natDigits ((q * 10 ^ q.den).num.toNat % 10 ^ q.den))))
        * 10 ^ t = (q * 10 ^ q.den).num.toNat % 10 ^ q.den := by
    rw [← append_replicate_zero_val, ← hT, hvalP]
  have hlenT :
      (trimZeros (padZeros q.den (natDigits ((q * 10 ^ q.den).num.toNat % 10 ^ q.den)))).length
        + t = q.den := by
    have hlen := congrArg List.length hT
    rw [hPlen] at hlen
    simpa using hlen.symm
  have hPdig : ∀ c ∈ padZeros q.den (natDigits ((q * 10 ^ q.den).num.toNat % 10 ^ q.den)),
      48 ≤ c.toNat ∧ c.toNat ≤ 57 := by
    intro c hc
    rcases padZeros_mem hc with rfl | hc
    · exact ⟨by decide, by decide⟩
    · exact natDigits_bounds _ c hc
  have hTdig : ∀ c ∈
      trimZeros (padZeros q.den (natDigits ((q * 10 ^ q.den).num.toNat % 10 ^ q.den))),
      48 ≤ c.toNat ∧ c.toNat ≤ 57 := fun c hc => hPdig c (trimZeros_mem hc)
  have hIdig : ∀ c ∈ natDigits ((q * 10 ^ q.den).num.toNat / 10 ^ q.den),
      48 ≤ c.toNat ∧ c.toNat ≤ 57 := natDigits_bounds _
  have hIne : natDigits ((q * 10 ^ q.den).num.toNat / 10 ^ q.den) ≠ [] :=
    natDigits_ne_nil _
  refine ⟨natDigits ((q * 10 ^ q.den).num.toNat / 10 ^ q.den),
    if trimZeros (padZeros q.den (natDigits ((q * 10 ^ q.den).num.toNat % 10 ^ q.den))) = []
      then ['0']
      else trimZeros (padZeros q.den (natDigits ((q * 10 ^ q.den).num.toNat % 10 ^ q.den))),
    rfl, hIne, ?_, hIdig, ?_, ?_⟩
  · split
    · simp
    · next h => exact h
  · split
    · intro c hc
      simp only [List.mem_singleton] at hc
      subst hc
      exact ⟨by decide, by decide⟩
    · exact hTdig
  · simp only [posNumChars]
    split
    · next hTnil =>
        rw [parseFloat_decimal hIne hIdig
          (fun c hc => by
            simp only [List.mem_singleton] at hc
            subst hc
            exact ⟨by decide, by decide⟩)]
        have hfp0 : (q * 10 ^ q.den).num.toNat % 10 ^ q.den = 0 := by
          rw [hTnil] at hvalT
          simpa [digitsValAux] using hvalT.symm
        have hd0 : digitsVal ['0'] = 0 := by decide
        rw [natDigits_val, hd0]
        rw [hfp0] at hNsplit
        exact congrArg some (decimal_value_eq_zero hq10 hNsplit)
    · next hTnil =>
        rw [parseFloat_decimal hIne hIdig hTdig]
        rw [natDigits_val, digitsVal_eq_aux]
        exact congrArg some (decimal_value_eq hq10 hNsplit hvalT hlenT)

/-- The continuation after a numeral may not begin with a digit or a point
(otherwise the scanner would keep consuming). -/
def numStop (rest : List Char) : Prop :=
  ∀ c, rest.head? = some c → c.isDigit = false ∧ c ≠ '.'

theorem scanNumber_append {ds rest : List Char}
    (hds : ∀ c ∈ ds, c.isDigit = true ∨ c = '.')
    (hrest : numStop rest) :
    scanNumber (ds ++ rest) = (ds, rest) := by
  induction ds with
  | nil =>
      simp only [List.nil_append]
      cases rest with
      | nil => rfl
      | cons c cs =>
          have hc := hrest c rfl
          rw [scanNumber, if_neg]
          rintro (h | h)
          · rw [hc.1] at h
            cases h
          · exact hc.2 h
  | cons c cs ih =>
      have hc := hds c (by simp)
      rw [List.cons_append, scanNumber, if_pos]
      · rw [ih (fun d hd => hds d (by simp [hd]))]
      · rcases hc with hc | hc
        · exact Or.inl hc
        · exact Or.inr hc

theorem tokenizeLoop_space (cs : List Char) :
    tokenizeLoop (' ' :: cs) = tokenizeLoop cs := by
  rw [tokenizeLoop]
  simp +decide

theorem tokenizeLoop_alpha {c : Char} (cs : List Char) (h : c.isAlpha = true) :
    tokenizeLoop (c :: cs) = (tokenizeLoop cs).map (Token.varTok c :: ·) := by
  obtain ⟨hws, hdig, hdot⟩ := alpha_branch h
  rw [tokenizeLoop, if_neg (by simp [hws]), dif_neg (by simp [hdig, hdot]),
    if_pos (by simp [h])]

theorem tokenizeLoop_opChar (op : Op) (cs : List Char) :
    tokenizeLoop (op.char :: cs) = (tokenizeLoop cs).map (Token.opTok op.char :: ·) := by
  cases op <;>
    (rw [tokenizeLoop]; simp +decide [Op.char, opChars])

theorem tokenizeLoop_lparen (cs : List Char) :
    tokenizeLoop ('(' :: cs) = (tokenizeLoop cs).map (Token.lparen :: ·) := by
  rw [tokenizeLoop]
  simp +decide

theorem tokenizeLoop_rparen (cs : List Char) :
    tokenizeLoop (')' :: cs) = (tokenizeLoop cs).map (Token.rparen :: ·) := by
  rw [tokenizeLoop]
  simp +decide

theorem tokenizeLoop_numeral {q : ℚ} {rest : List Char}
    (hq : 0 ≤ q) (hfd : finiteDecimal q = true) (hrest : numStop rest) :
    tokenizeLoop (posNumChars q ++ rest) =
      (tokenizeLoop rest).map (Token.number q :: ·) := by
  obtain ⟨I, F, hshape, hIne, hFne, hIdig, hFdig, hparse⟩ := posNumChars_spec hq hfd
  rw [hshape] at hparse ⊢
  obtain ⟨c, I', rfl⟩ := List.exists_cons_of_ne_nil hIne
  have hc := hIdig c (by simp)
  have hdigs : ∀ d ∈ (c :: I') ++ '.' :: F, d.isDigit = true ∨ d = '.' := by
    intro d hd
    rcases List.mem_append.mp hd with hd | hd
    · exact Or.inl (isDigit_of_toNat (hIdig d hd).1 (hIdig d hd).2)
    · rcases List.mem_cons.mp hd with rfl | hd
      · exact Or.inr rfl
      · exact Or.inl (isDigit_of_toNat (hFdig d hd).1 (hFdig d hd).2)
  have hscan : scanNumber (((c :: I') ++ '.' :: F) ++ rest) = ((c :: I') ++ '.' :: F, rest) :=
    scanNumber_append hdigs hrest
  have hcons : ((c :: I') ++ '.' :: F) ++ rest = c :: ((I' ++ '.' :: F) ++ rest) := by
    simp
  rw [hcons]
  rw [tokenizeLoop, if_neg (by simp [isWhitespace_false (c := c) (by omega)]),
    dif_pos (Or.inl (isDigit_of_toNat hc.1 hc.2))]
  have hpn : parseNumberChars (c :: ((I' ++ '.' :: F) ++ rest)) =
      ((c :: I') ++ '.' :: F, rest) := by
    rw [parseNumberChars_not_minus (by
      simp only [List.head?_cons, ne_eq, Option.some.injEq]
      apply ne_of_toNat_ne
      have : ('-' : Char).toNat = 45 := by decide
      omega)]
    rw [← hcons]
    exact hscan
  rw [hpn]
  simp only [hparse]

theorem exceptMap_map {ε α β γ : Type} (f : β → γ) (g : α → β) (x : Except ε α) :
    (x.map g).map f = x.map (fun a => f (g a)) := by
  cases x <;> rfl

theorem exceptMap_congr {ε α β : Type} {f g : α → β} (x : Except ε α)
    (h : ∀ a, f a = g a) : x.map f = x.map g := by
  cases x <;> simp [Except.map, h]

theorem numStop_space (s : List Char) : numStop (' ' :: s) := by
  intro c hc
  simp only [List.head?_cons, Option.some.injEq] at hc
  subst hc
  exact ⟨by decide, by decide⟩

theorem numStop_rparen (s : List Char) : numStop (')' :: s) := by
  intro c hc
  simp only [List.head?_cons, Option.some.injEq] at hc
  subst hc
  exact ⟨by decide, by decide⟩

theorem numStop_nil : numStop ([] : List Char) := by
  intro c hc
  cases hc

/-- The parenthesize-compound-children rule of `BinaryOp.__str__`. -/
def wrapDisplay (e : Expr) : String :=
  match e with
  | .binOp .. => "(" ++ toDisplayString e ++ ")"
  | _ => toDisplayString e

theorem toDisplayString_binOp (l : Expr) (op : Op) (r : Expr) :
    toDisplayString (.binOp l op r) =
      wrapDisplay l ++ " " ++ String.mk [op.char] ++ " " ++ wrapDisplay r := by
  cases l <;> cases r <;> rfl

theorem tokensOf_binOp (l : Expr) (op : Op) (r : Expr) :
    tokensOf (.binOp l op r) =
      wrapTokens l ++ (Token.opTok op.char :: wrapTokens r) := by
  cases l <;> cases r <;> rfl

/-- Tokenizing the parenthesized-when-compound rendering of a subtree,
assuming the display lemma for the subtree itself. -/
theorem tokenizeLoop_wrap {sub : Expr}
    (ih : ∀ rest, numStop rest →
      tokenizeLoop ((toDisplayString sub).data ++ rest) =
        (tokenizeLoop rest).map (tokensOf sub ++ ·))
    (rest : List Char) (hrest : numStop rest) :
    tokenizeLoop ((wrapDisplay sub).data ++ rest) =
      (tokenizeLoop rest).map (wrapTokens sub ++ ·) := by
  match sub with
  | .num q => exact ih rest hrest
  | .var c => exact ih rest hrest
  | .binOp l op r =>
      have hdata : (wrapDisplay (.binOp l op r)).data ++ rest =
          '(' :: ((toDisplayString (.binOp l op r)).data ++ (')' :: rest)) := by
        show ("(" ++ toDisplayString (.binOp l op r) ++ ")").data ++ rest = _
        simp [String.data_append]
      rw [hdata, tokenizeLoop_lparen, ih (')' :: rest) (numStop_rparen rest),
        tokenizeLoop_rparen, exceptMap_map, exceptMap_map]
      refine exceptMap_congr _ fun a => ?_
      simp [wrapTokens]

/-- Tokenizing the display string of a good tree: the lexer produces exactly
`tokensOf t` and goes on to scan the continuation. -/
theorem tokenizeLoop_display : ∀ {t : Expr}, goodPM t = true →
    ∀ rest, numStop rest →
      tokenizeLoop ((toDisplayString t).data ++ rest) =
        (tokenizeLoop rest).map (tokensOf t ++ ·) := by
  intro t
  induction t with
  | num q =>
      intro hg rest hrest
      simp only [goodPM, Bool.and_eq_true, decide_eq_true_eq] at hg
      have hshow : (toDisplayString (.num q)).data = posNumChars q := by
        show (numToString q).data = posNumChars q
        rw [numToString, if_neg (not_lt.mpr hg.1.1)]
      rw [hshow, tokenizeLoop_numeral hg.1.1 hg.1.2 hrest]
      exact exceptMap_congr _ fun a => rfl
  | var c =>
      intro hg rest hrest
      have hshow : (toDisplayString (.var c)).data ++ rest = c :: rest := rfl
      rw [hshow, tokenizeLoop_alpha rest hg]
      exact exceptMap_congr _ fun a => rfl
  | binOp l op r ihl ihr =>
      intro hg rest hrest
      simp only [goodPM, Bool.and_eq_true] at hg
      obtain ⟨⟨hop, hgl⟩, hgr⟩ := hg
      have hdata : (toDisplayString (.binOp l op r)).data ++ rest =
          (wrapDisplay l).data ++
            (' ' :: op.char :: ' ' :: ((wrapDisplay r).data ++ rest)) := by
        rw [toDisplayString_binOp]
        simp [String.data_append]
      rw [hdata]
      rw [tokenizeLoop_wrap (ihl hgl) _ (numStop_space _), tokenizeLoop_space,
        tokenizeLoop_opChar, tokenizeLoop_space,
        tokenizeLoop_wrap (ihr hgr) _ hrest]
      simp only [exceptMap_map]
      refine exceptMap_congr _ fun a => ?_
      rw [tokensOf_binOp]
      simp

/-- Tokenizing a good display string end-to-end. -/
theorem tokenize_display {t : Expr} (hg : goodPM t = true) :
    tokenize (toDisplayString t) = .ok (tokensOf t ++ [Token.eof]) := by
  rw [tokenize]
  have h := tokenizeLoop_display hg [] numStop_nil
  rw [List.append_nil] at h
  rw [h]
  rw [show tokenizeLoop [] = .ok [] from by rw [tokenizeLoop]]
  simp [Except.map]

namespace Parser

theorem stopMul_of_stopAdd {s : List Token} (h : stopAdd s = true) : stopMul s = true := by
  match s with
  | [] => rfl
  | .opTok c :: s' => simp [stopAdd] at h
  | .number v :: s' => rfl
  | .varTok v :: s' => rfl
  | .lparen :: s' => rfl
  | .rparen :: s' => rfl
  | .eof :: s' => rfl

theorem stopExp_of_stopMul {s : List Token} (h : stopMul s = true) : stopExp s = true := by
  match s with
  | [] => rfl
  | .opTok c :: s' =>
      simp only [stopMul, decide_eq_true_eq] at h
      simp only [stopExp, decide_eq_true_eq]
      rcases h with rfl | rfl <;> decide
  | .number v :: s' => rfl
  | .varTok v :: s' => rfl
  | .lparen :: s' => rfl
  | .rparen :: s' => rfl
  | .eof :: s' => rfl

theorem parseAdditionLoop_stop {s : List Token} (h : stopAdd s = true) (f : ℕ) (acc : Expr) :
    parseAdditionLoop (f + 1) acc s = .ok (acc, s) := by
  match s with
  | [] => rfl
  | .opTok c :: s' => simp [stopAdd] at h
  | .number v :: s' => rfl
  | .varTok v :: s' => rfl
  | .lparen :: s' => rfl
  | .rparen :: s' => rfl
  | .eof :: s' => rfl

theorem parseMultiplicationLoop_stop {s : List Token} (h : stopMul s = true) (f : ℕ)
    (acc : Expr) : parseMultiplicationLoop (f + 1) acc s = .ok (acc, s) := by
  match s with
  | [] => rfl
  | .opTok c :: s' =>
      simp only [stopMul, decide_eq_true_eq] at h
      rcases h with rfl | rfl <;> rfl
  | .number v :: s' => rfl
  | .varTok v :: s' => rfl
  | .lparen :: s' => rfl
  | .rparen :: s' => rfl
  | .eof :: s' => rfl

theorem parseExponentiation_of_primary {fuel : ℕ} {ts : List Token} {e : Expr}
    {s : List Token} (h : parsePrimary fuel ts = .ok (e, s)) (hs : stopExp s = true) :
    parseExponentiation (fuel + 1) ts = .ok (e, s) := by
  have heq : parseExponentiation (fuel + 1) ts =
      (parsePrimary fuel ts >>= fun p =>
        match p.2 with
        | .opTok '^' :: rest =>
            parseExponentiation fuel rest >>= fun q => .ok (.binOp p.1 .pow q.1, q.2)
        | _ => .ok p) := rfl
  rw [heq, h, okBind]
  match s, hs with
  | [], _ => rfl
  | .opTok c :: s', hs =>
      simp only [stopExp, decide_eq_true_eq] at hs
      have : c ≠ '^' := hs
      split
      · next heq2 =>
          injection heq2 with h1 h2
          injection h1 with h1
          exact absurd h1 this
      · next => rfl
  | .number v :: s', _ => rfl
  | .varTok v :: s', _ => rfl
  | .lparen :: s', _ => rfl
  | .rparen :: s', _ => rfl
  | .eof :: s', _ => rfl

theorem parseMultiplication_of_exponentiation {f : ℕ} {ts : List Token} {e : Expr}
    {s : List Token} (h : parseExponentiation f ts = .ok (e, s)) (hs : stopMul s = true)
    (hf : 1 ≤ f) : parseMultiplication (f + 1) ts = .ok (e, s) := by
  have heq : parseMultiplication (f + 1) ts =
      (parseExponentiation f ts >>= fun p => parseMultiplicationLoop f p.1 p.2) := rfl
  rw [heq, h, okBind]
  obtain ⟨f', rfl⟩ : ∃ f', f = f' + 1 := ⟨f - 1, by omega⟩
  exact parseMultiplicationLoop_stop hs f' e

theorem parseAddition_of_multiplication {f : ℕ} {ts : List Token} {e : Expr}
    {s : List Token} (h : parseMultiplication f ts = .ok (e, s)) (hs : stopAdd s = true)
    (hf : 1 ≤ f) : parseAddition (f + 1) ts = .ok (e, s) := by
  have heq : parseAddition (f + 1) ts =
      (parseMultiplication f ts >>= fun p => parseAdditionLoop f p.1 p.2) := rfl
  rw [heq, h, okBind]
  obtain ⟨f', rfl⟩ : ∃ f', f = f' + 1 := ⟨f - 1, by omega⟩
  exact parseAdditionLoop_stop hs f' e

end Parser

namespace Parser

theorem parsePrimary_number (fuel : ℕ) (v : ℚ) (rest : List Token) :
    parsePrimary fuel (.number v :: rest) = .ok (.num v, rest) := by
  match fuel with
  | 0 => rfl
  | f + 1 => rfl

theorem parsePrimary_var (fuel : ℕ) (c : Char) (rest : List Token) :
    parsePrimary fuel (.varTok c :: rest) = .ok (.var c, rest) := by
  match fuel with
  | 0 => rfl
  | f + 1 => rfl

/-- The heart of the round-trip: on the token image of a good tree, each
recursive-descent level reconstructs exactly the tree and leaves the
continuation untouched, for every sufficient fuel. -/
theorem parse_round : ∀ t : Expr, goodPM t = true →
    (∀ s fuel, 4 * exprSize t ≤ fuel → stopAdd s = true →
      parseAddition fuel (tokensOf t ++ s) = .ok (t, s)) ∧
    (∀ s fuel, 4 * exprSize t + 1 ≤ fuel →
      parsePrimary fuel (wrapTokens t ++ s) = .ok (t, s)) ∧
    (∀ s fuel, 4 * exprSize t + 2 ≤ fuel → stopExp s = true →
      parseExponentiation fuel (wrapTokens t ++ s) = .ok (t, s)) ∧
    (∀ s fuel, 4 * exprSize t + 3 ≤ fuel → stopMul s = true →
      parseMultiplication fuel (wrapTokens t ++ s) = .ok (t, s)) := by
  have leafChain : ∀ (tok : Token) (e : Expr),
      (∀ fuel rest, parsePrimary fuel (tok :: rest) = .ok (e, rest)) →
      (∀ s fuel, 4 ≤ fuel → stopAdd s = true →
        parseAddition fuel (tok :: s) = .ok (e, s)) ∧
      (∀ s fuel, 5 ≤ fuel → parsePrimary fuel (tok :: s) = .ok (e, s)) ∧
      (∀ s fuel, 6 ≤ fuel → stopExp s = true →
        parseExponentiation fuel (tok :: s) = .ok (e, s)) ∧
      (∀ s fuel, 7 ≤ fuel → stopMul s = true →
        parseMultiplication fuel (tok :: s) = .ok (e, s)) := by
    intro tok e hp
    have hExp : ∀ s fuel, 1 ≤ fuel → stopExp s = true →
        parseExponentiation fuel (tok :: s) = .ok (e, s) := by
      intro s fuel hf hs
      obtain ⟨f, rfl⟩ : ∃ f, fuel = f + 1 := ⟨fuel - 1, by omega⟩
      exact parseExponentiation_of_primary (hp f s) hs
    have hMul : ∀ s fuel, 3 ≤ fuel → stopMul s = true →
        parseMultiplication fuel (tok :: s) = .ok (e, s) := by
      intro s fuel hf hs
      obtain ⟨f, rfl⟩ : ∃ f, fuel = f + 1 := ⟨fuel - 1, by omega⟩
      exact parseMultiplication_of_exponentiation
        (hExp s f (by omega) (stopExp_of_stopMul hs)) hs (by omega)
    refine ⟨?_, fun s fuel _ => hp fuel s, fun s fuel _ hs => hExp s fuel (by omega) hs,
      fun s fuel _ hs => hMul s fuel (by omega) hs⟩
    intro s fuel hf hs
    obtain ⟨f, rfl⟩ : ∃ f, fuel = f + 1 := ⟨fuel - 1, by omega⟩
    exact parseAddition_of_multiplication
      (hMul s f (by omega) (stopMul_of_stopAdd hs)) hs (by omega)
  intro t
  induction t with
  | num q =>
      intro _
      exact leafChain (.number q) (.num q) (fun fuel rest => parsePrimary_number fuel q rest)
  | var c =>
      intro _
      exact leafChain (.varTok c) (.var c) (fun fuel rest => parsePrimary_var fuel c rest)
  | binOp l op r ihl ihr =>
      intro hg
      simp only [goodPM, Bool.and_eq_true] at hg
      obtain ⟨⟨hop, hgl⟩, hgr⟩ := hg
      obtain ⟨ihl4, ihl1, ihl2, ihl3⟩ := ihl hgl
      obtain ⟨ihr4, ihr1, ihr2, ihr3⟩ := ihr hgr
      have hsz : exprSize (.binOp l op r) = exprSize l + exprSize r + 1 := rfl
      have hszl : 1 ≤ exprSize l := by cases l <;> simp [exprSize] <;> omega
      have hszr : 1 ≤ exprSize r := by cases r <;> simp [exprSize] <;> omega
      have h4 : ∀ s fuel, 4 * exprSize (.binOp l op r) ≤ fuel → stopAdd s = true →
          parseAddition fuel (tokensOf (.binOp l op r) ++ s) = .ok (.binOp l op r, s) := by
        intro s fuel hf hs
        rw [tokensOf_binOp]
        have hassoc : (wrapTokens l ++ (Token.opTok op.char :: wrapTokens r)) ++ s =
            wrapTokens l ++ (Token.opTok op.char :: (wrapTokens r ++ s)) := by simp
        rw [hassoc]
        obtain ⟨f, rfl⟩ : ∃ f, fuel = f + 1 := ⟨fuel - 1, by omega⟩
        have heqAdd : parseAddition (f + 1)
            (wrapTokens l ++ (Token.opTok op.char :: (wrapTokens r ++ s))) =
            (parseMultiplication f (wrapTokens l ++ (Token.opTok op.char :: (wrapTokens r ++ s)))
              >>= fun p => parseAdditionLoop f p.1 p.2) := rfl
        rw [heqAdd]
        cases op with
        | add =>
            simp only [Op.char]
            rw [ihl3 (.opTok '+' :: (wrapTokens r ++ s)) f (by omega) rfl, okBind]
            obtain ⟨f', rfl⟩ : ∃ f', f = f' + 1 := ⟨f - 1, by omega⟩
            have heqLoop : parseAdditionLoop (f' + 1) l
                (.opTok '+' :: (wrapTokens r ++ s)) =
                (parseMultiplication f' (wrapTokens r ++ s) >>= fun p =>
                  parseAdditionLoop f' (.binOp l .add p.1) p.2) := rfl
            rw [heqLoop, ihr3 s f' (by omega) (stopMul_of_stopAdd hs), okBind]
            obtain ⟨f'', rfl⟩ : ∃ f'', f' = f'' + 1 := ⟨f' - 1, by omega⟩
            exact parseAdditionLoop_stop hs f'' _
        | sub =>
            simp only [Op.char]
            rw [ihl3 (.opTok '-' :: (wrapTokens r ++ s)) f (by omega) rfl, okBind]
            obtain ⟨f', rfl⟩ : ∃ f', f = f' + 1 := ⟨f - 1, by omega⟩
            have heqLoop : parseAdditionLoop (f' + 1) l
                (.opTok '-' :: (wrapTokens r ++ s)) =
                (parseMultiplication f' (wrapTokens r ++ s) >>= fun p =>
                  parseAdditionLoop f' (.binOp l .sub p.1) p.2) := rfl
            rw [heqLoop, ihr3 s f' (by omega) (stopMul_of_stopAdd hs), okBind]
            obtain ⟨f'', rfl⟩ : ∃ f'', f' = f'' + 1 := ⟨f' - 1, by omega⟩
            exact parseAdditionLoop_stop hs f'' _
        | mul =>
            simp only [Op.char]
            obtain ⟨f', rfl⟩ : ∃ f', f = f' + 1 := ⟨f - 1, by omega⟩
            have heqMul : parseMultiplication (f' + 1)
                (wrapTokens l ++ (Token.opTok '*' :: (wrapTokens r ++ s))) =
                (parseExponentiation f'
                    (wrapTokens l ++ (Token.opTok '*' :: (wrapTokens r ++ s)))
                  >>= fun p => parseMultiplicationLoop f' p.1 p.2) := rfl
            rw [heqMul, ihl2 (.opTok '*' :: (wrapTokens r ++ s)) f' (by omega) rfl, okBind]
            obtain ⟨g, rfl⟩ : ∃ g, f' = g + 1 := ⟨f' - 1, by omega⟩
            have heqLoop : parseMultiplicationLoop (g + 1) l
                (.opTok '*' :: (wrapTokens r ++ s)) =
                (parseExponentiation g (wrapTokens r ++ s) >>= fun p =>
                  parseMultiplicationLoop g (.binOp l .mul p.1) p.2) := rfl
            rw [heqLoop,
              ihr2 s g (by omega) (stopExp_of_stopMul (stopMul_of_stopAdd hs)), okBind]
            obtain ⟨g', rfl⟩ : ∃ g', g = g' + 1 := ⟨g - 1, by omega⟩
            rw [parseMultiplicationLoop_stop (stopMul_of_stopAdd hs) g' _, okBind]
            exact parseAdditionLoop_stop hs (g' + 1 + 1) _
        | div => simp at hop
        | pow => simp at hop
      have h1 : ∀ s fuel, 4 * exprSize (.binOp l op r) + 1 ≤ fuel →
          parsePrimary fuel (wrapTokens (.binOp l op r) ++ s) = .ok (.binOp l op r, s) := by
        intro s fuel hf
        obtain ⟨f, rfl⟩ : ∃ f, fuel = f + 1 := ⟨fuel - 1, by omega⟩
        have hshape : wrapTokens (.binOp l op r) ++ s =
            Token.lparen :: (tokensOf (.binOp l op r) ++ (Token.rparen :: s)) := by
          show (Token.lparen :: (tokensOf (.binOp l op r) ++ [Token.rparen])) ++ s = _
          simp
        rw [hshape]
        have heqPrim : parsePrimary (f + 1)
            (Token.lparen :: (tokensOf (.binOp l op r) ++ (Token.rparen :: s))) =
            (parseAddition f (tokensOf (.binOp l op r) ++ (Token.rparen :: s)) >>= fun p =>
              match p.2 with
              | Token.rparen :: rest' => .ok (p.1, rest')
              | _ => .error (.parseError "Expected closing parenthesis after expression")) :=
          rfl
        rw [heqPrim, h4 (Token.rparen :: s) f (by omega) rfl, okBind]
      have h2 : ∀ s fuel, 4 * exprSize (.binOp l op r) + 2 ≤ fuel → stopExp s = true →
          parseExponentiation fuel (wrapTokens (.binOp l op r) ++ s) =
            .ok (.binOp l op r, s) := by
        intro s fuel hf hs
        obtain ⟨f, rfl⟩ : ∃ f, fuel = f + 1 := ⟨fuel - 1, by omega⟩
        exact parseExponentiation_of_primary (h1 s f (by omega)) hs
      refine ⟨h4, h1, h2, ?_⟩
      intro s fuel hf hs
      obtain ⟨f, rfl⟩ : ∃ f, fuel = f + 1 := ⟨fuel - 1, by omega⟩
      exact parseMultiplication_of_exponentiation
        (h2 s f (by omega) (stopExp_of_stopMul hs)) hs (by omega)

end Parser

theorem tokensOf_le_wrapTokens (t : Expr) : (tokensOf t).length ≤ (wrapTokens t).length := by
  cases t with
  | num q => exact le_rfl
  | var c => exact le_rfl
  | binOp l op r =>
      show (tokensOf (.binOp l op r)).length ≤
        (Token.lparen :: (tokensOf (.binOp l op r) ++ [Token.rparen])).length
      simp
      omega

theorem exprSize_le_tokensOf (t : Expr) : exprSize t ≤ (tokensOf t).length := by
  induction t with
  | num q => exact le_rfl
  | var c => exact le_rfl
  | binOp l op r ihl ihr =>
      rw [tokensOf_binOp]
      have hl := le_trans ihl (tokensOf_le_wrapTokens l)
      have hr := le_trans ihr (tokensOf_le_wrapTokens r)
      simp only [exprSize, List.length_append, List.length_cons]
      omega

theorem parse_tokensOf {t : Expr} (hg : goodPM t = true) :
    Parser.parse (tokensOf t ++ [Token.eof]) = .ok t := by
  rw [Parser.parse, if_neg (by simp)]
  have hfuel : 4 * exprSize t ≤ 4 * (tokensOf t ++ [Token.eof]).length + 4 := by
    have := exprSize_le_tokensOf t
    simp only [List.length_append, List.length_cons, List.length_nil]
    omega
  obtain ⟨h4, -, -, -⟩ := Parser.parse_round t hg
  have hstop : stopAdd [Token.eof] = true := rfl
  have hadd := h4 [Token.eof] (4 * (tokensOf t ++ [Token.eof]).length + 4) hfuel hstop
  rw [hadd]
  rfl

/-- Display/parse round trip on good trees: re-parsing the display string
reconstructs the tree exactly. -/
theorem parse_expression_display {t : Expr} (hg : goodPM t = true) :
    parse_expression (toDisplayString t) = .ok t := by
  show (tokenize (toDisplayString t) >>= Parser.parse) = .ok t
  rw [tokenize_display hg, okBind, parse_tokensOf hg]

/-! ### The float layer

The exact layer above mirrors every arithmetic step on ℚ, which is faithful
whenever no float rounding, overflow or `nan` arises.  The definitions below
re-embed `evaluate` and the simplifier at float precision, modelling exactly
the outcomes the exact layer erases: saturation of `+ - * /` to `±inf`,
`nan` propagation (`inf + (-inf) = nan`, `inf * 0 = nan`), and the
`OverflowError` CPython's float `**` raises when a finite result overflows.
Finite values are held exactly (CPython additionally rounds each finite
result to 53 bits of precision; no theorem below depends on such a sub-ulp
rounding step, every finite value computed in them being exact in float64
too), `-0.0` is identified with `0`, and the complex value CPython's `**`
returns for a negative base with a fractional exponent is outside the model
(`pypow`'s stand-in is kept; no theorem below reaches that case). -/

/-- A CPython float64 value: a finite value (held exactly), the two
infinities, or `nan`. -/
inductive PyFloat where
  | finite (q : ℚ)
  | posInf
  | negInf
  | nan
  deriving DecidableEq, Repr

/-- The magnitude at which round-to-nearest-even overflows a float64 to
`inf`: half an ulp above the largest finite double `2^1024 - 2^971`. -/
def ovfBound : ℚ := 2 ^ 1024 - 2 ^ 970

/-- Place an exactly-computed finite result into a float64: values at or
beyond the IEEE overflow threshold saturate to `±inf`, in-range values are
kept exactly (see the layer comment on rounding). -/
def satF (q : ℚ) : PyFloat :=
  if ovfBound ≤ q then .posInf
  else if q ≤ -ovfBound then .negInf
  else .finite q

/-- Float negation. -/
def negF : PyFloat → PyFloat
  | .finite q => .finite (-q)
  | .posInf => .negInf
  | .negInf => .posInf
  | .nan => .nan

/-- Float `+` (IEEE: `nan` propagates, `inf + (-inf) = nan`, an infinity
absorbs a finite operand; CPython's float `+` never raises, overflow
silently produces `±inf`). -/
def addF : PyFloat → PyFloat → PyFloat
  | .nan, _ => .nan
  | _, .nan => .nan
  | .finite a, .finite b => satF (a + b)
  | .posInf, .negInf => .nan
  | .negInf, .posInf => .nan
  | .posInf, _ => .posInf
  | _, .posInf => .posInf
  | .negInf, _ => .negInf
  | _, .negInf => .negInf

/-- Float `-`: in IEEE arithmetic `a - b = a + (-b)` (with `-0.0` outside
the model). -/
def subF (x y : PyFloat) : PyFloat := addF x (negF y)

/-- Float `*` (IEEE: `nan` propagates, `±inf * 0 = nan`, otherwise an
infinite operand gives an infinity by the sign rule; CPython's float `*`
never raises, overflow silently produces `±inf`). -/
def mulF : PyFloat → PyFloat → PyFloat
  | .nan, _ => .nan
  | _, .nan => .nan
  | .finite a, .finite b => satF (a * b)
  | .posInf, .posInf => .posInf
  | .posInf, .negInf => .negInf
  | .negInf, .posInf => .negInf
  | .negInf, .negInf => .posInf
  | .posInf, .finite b => if b = 0 then .nan else if 0 < b then .posInf else .negInf
  | .finite a, .posInf => if a = 0 then .nan else if 0 < a then .posInf else .negInf
  | .negInf, .finite b => if b = 0 then .nan else if 0 < b then .negInf else .posInf
  | .finite a, .negInf => if a = 0 then .nan else if 0 < a then .negInf else .posInf

/-- Float `/`: CPython raises `ZeroDivisionError` whenever the divisor
equals 0 (checked before the IEEE division), and otherwise follows IEEE:
`nan` propagates, `±inf / ±inf = nan`, finite `/ ±inf` is 0 (sign of zero
outside the model), `±inf /` finite keeps an infinity by the sign rule, and
an overflowing finite quotient silently saturates to `±inf`. -/
def divF (x y : PyFloat) : Except Err PyFloat :=
  match y with
  | .finite b =>
      if b = 0 then .error .zeroDivisionError
      else
        match x with
        | .nan => .ok .nan
        | .finite a => .ok (satF (a / b))
        | .posInf => .ok (if 0 < b then .posInf else .negInf)
        | .negInf => .ok (if 0 < b then .negInf else .posInf)
  | .nan => .ok .nan
  | .posInf =>
      match x with
      | .finite _ => .ok (.finite 0)
      | _ => .ok .nan
  | .negInf =>
      match x with
      | .finite _ => .ok (.finite 0)
      | _ => .ok .nan

/-- The exponent is an odd integer (the sign case of `(-inf) ** b`). -/
def oddExp (b : ℚ) : Bool := b.den == 1 && decide (b.num % 2 ≠ 0)

/-- CPython's float `**` (`float_pow`): `x ** 0 = 1` for every `x` including
`nan` and the infinities; `nan` propagates except against base `1.0`
(`1.0 ** nan = 1.0`); an infinite operand follows the C99 `pow` special
cases without raising; a zero base with a negative finite exponent raises
`ZeroDivisionError`; finite operands whose (true) result is out of range
raise `OverflowError`.  Underflow to 0 and the rounding of in-range
results are not modelled (the exact value is kept), and for a negative base
with a fractional exponent — where CPython returns a complex number —
`pypow`'s stand-in value is kept; no theorem below reaches either case. -/
def powF (x y : PyFloat) : Except Err PyFloat :=
  match x, y with
  | .finite a, .finite b =>
      if b = 0 then .ok (.finite 1)
      else if a = 0 then
        if b < 0 then .error .zeroDivisionError else .ok (.finite 0)
      else
        let e := pypow a b
        if ovfBound ≤ e ∨ e ≤ -ovfBound then .error .overflowError
        else .ok (.finite e)
  | .finite a, .nan => .ok (if a = 1 then .finite 1 else .nan)
  | .finite a, .posInf =>
      .ok (if a = 1 ∨ a = -1 then .finite 1
           else if -1 < a ∧ a < 1 then .finite 0 else .posInf)
  | .finite a, .negInf =>
      .ok (if a = 1 ∨ a = -1 then .finite 1
           else if -1 < a ∧ a < 1 then .posInf else .finite 0)
  | .nan, .finite b => .ok (if b = 0 then .finite 1 else .nan)
  | .nan, _ => .ok .nan
  | .posInf, .finite b =>
      .ok (if b = 0 then .finite 1 else if 0 < b then .posInf else .finite 0)
  | .negInf, .finite b =>
      .ok (if b = 0 then .finite 1
           else if 0 < b then (if oddExp b then .negInf else .posInf)
           else .finite 0)
  | .posInf, .posInf => .ok .posInf
  | .posInf, .negInf => .ok (.finite 0)
  | .negInf, .posInf => .ok .posInf
  | .negInf, .negInf => .ok (.finite 0)
  | .posInf, .nan => .ok .nan
  | .negInf, .nan => .ok .nan

/-- Python's `x == 0` on a float (`nan == 0` is false). -/
def isZeroF : PyFloat → Bool
  | .finite q => q == 0
  | _ => false

/-- Python's `x == 1` on a float. -/
def isOneF : PyFloat → Bool
  | .finite q => q == 1
  | _ => false

/-- The expression tree of `src/nodes.py` with its `Number` payloads at
float precision: the float layer's counterpart of `Expr`. -/
inductive ExprF where
  | num (value : PyFloat)
  | var (name : Char)
  | binOp (left : ExprF) (op : Op) (right : ExprF)
  deriving DecidableEq, Repr

/-- Float-layer variable bindings. -/
abbrev BindingsF := List (Char × PyFloat)

/-- `Node.evaluate` (`src/nodes.py`, lines 152-162 and 211-235) in the float
layer: identical structure and dispatch, the `/` guard comparing the
evaluated right value to 0 by Python `==`, `+ - * /` through the float
operations and `**` through `powF` (which raises). -/
def evaluateF : ExprF → BindingsF → Except Err PyFloat
  | .num v, _ => .ok v
  | .var n, b =>
      match b.lookup n with
      | some v => .ok v
      | none => .error (.undefinedVariable n)
  | .binOp l op r, b => do
      let lv ← evaluateF l b
      let rv ← evaluateF r b
      match op with
      | .add => .ok (addF lv rv)
      | .sub => .ok (subF lv rv)
      | .mul => .ok (mulF lv rv)
      | .div => if isZeroF rv then .error .divisionByZero else divF lv rv
      | .pow => powF lv rv

/-- `isinstance(e, Number)` payload access in the float layer. -/
def numValF? : ExprF → Option PyFloat
  | .num v => some v
  | _ => none

/-- `isinstance(e, Number) and e.value == 0` in the float layer. -/
def isNumZeroF (e : ExprF) : Bool :=
  match numValF? e with
  | some v => isZeroF v
  | none => false

/-- `isinstance(e, Number) and e.value == 1` in the float layer. -/
def isNumOneF (e : ExprF) : Bool :=
  match numValF? e with
  | some v => isOneF v
  | none => false

/-- `Simplifier._simplify_binary_op` (`src/simplifier.py`, lines 74-155) in
the float layer: source branch order, guards by Python `==`, constant folds
through the float operations — so the `/` fold can raise
`ZeroDivisionError` and the `^` fold `ZeroDivisionError` or
`OverflowError`. -/
def simplifyBinOpF (left : ExprF) (op : Op) (right : ExprF) : Except Err ExprF :=
  match op with
  | .add =>
      if isNumZeroF right then .ok left
      else if isNumZeroF left then .ok right
      else
        match numValF? left, numValF? right with
        | some a, some b => .ok (.num (addF a b))
        | _, _ => .ok (.binOp left .add right)
  | .sub =>
      if isNumZeroF right then .ok left
      else if isNumZeroF left then .ok (.binOp (.num (.finite 0)) .sub right)
      else
        match numValF? left, numValF? right with
        | some a, some b => .ok (.num (subF a b))
        | _, _ => .ok (.binOp left .sub right)
  | .mul =>
      if isNumZeroF left || isNumZeroF right then .ok (.num (.finite 0))
      else if isNumOneF right then .ok left
      else if isNumOneF left then .ok right
      else
        match numValF? left, numValF? right with
        | some a, some b => .ok (.num (mulF a b))
        | _, _ => .ok (.binOp left .mul right)
  | .div =>
      if isNumOneF right then .ok left
      else if isNumZeroF left then .ok (.num (.finite 0))
      else
        match numValF? left, numValF? right with
        | some a, some b => (divF a b).map ExprF.num
        | _, _ => .ok (.binOp left .div right)
  | .pow =>
      if isNumOneF right then .ok left
      else if isNumZeroF right then .ok (.num (.finite 1))
      else
        match numValF? left, numValF? right with
        | some a, some b => (powF a b).map ExprF.num
        | _, _ => .ok (.binOp left .pow right)

/-- `Simplifier.simplify` (`src/simplifier.py`, lines 44-72) in the float
layer: children first, then one application of the binary-op rules. -/
def simplifyF : ExprF → Except Err ExprF
  | .num v => .ok (.num v)
  | .var n => .ok (.var n)
  | .binOp l op r => do
      let ls ← simplifyF l
      let rs ← simplifyF r
      simplifyBinOpF ls op rs

theorem simplifyF_binOp_eq (l r : ExprF) (op : Op) :
    simplifyF (.binOp l op r) =
      (simplifyF l >>= fun ls => simplifyF r >>= fun rs => simplifyBinOpF ls op rs) := rfl

/-- Finite `**` with an out-of-range true result raises `OverflowError`. -/
theorem powF_overflow {a b : ℚ} (ha : a ≠ 0) (hb : b ≠ 0)
    (h : ovfBound ≤ pypow a b) :
    powF (.finite a) (.finite b) = .error .overflowError := by
  simp only [powF]
  rw [if_neg hb, if_neg ha, if_pos (Or.inl h)]

/-- `1e200 ** 2` overflows: `10^400` is far beyond the float64 range, so
CPython raises `OverflowError`. -/
theorem powF_1e200_sq :
    powF (.finite (10 ^ 200)) (.finite 2) = .error .overflowError := by
  refine powF_overflow (by norm_num) (by norm_num) ?_
  rw [pypow, ovfBound, show ((2 : ℚ).num) = 2 from rfl]
  norm_num

/-- Adding two copies of a nonzero finite value that together reach the
overflow threshold folds (in the simplifier) and evaluates (in `evaluate`)
to `+inf`; multiplying the result by `Number(0)` evaluates to `nan`, while
the simplifier's `x * 0 → 0` rule returns `Number(0)`. -/
theorem float_sat_example {q : ℚ} (hq : q ≠ 0) (hb : ovfBound ≤ q + q) :
    evaluateF (.binOp (.binOp (.num (.finite q)) .add (.num (.finite q))) .mul
      (.num (.finite 0))) [] = .ok .nan ∧
    simplifyF (.binOp (.binOp (.num (.finite q)) .add (.num (.finite q))) .mul
      (.num (.finite 0))) = .ok (.num (.finite 0)) := by
  have hadd : addF (.finite q) (.finite q) = .posInf := by
    simp only [addF, satF]
    rw [if_pos hb]
  have hzn : isNumZeroF (ExprF.num (.finite q)) = false := by
    simp [isNumZeroF, numValF?, isZeroF, hq]
  have hfold : simplifyF (.binOp (.num (.finite q)) .add (.num (.finite q))) =
      .ok (.num .posInf) := by
    show simplifyBinOpF (.num (.finite q)) .add (.num (.finite q)) = .ok (.num .posInf)
    simp only [simplifyBinOpF]
    rw [if_neg (by simp [hzn]), if_neg (by simp [hzn])]
    show Except.ok (ExprF.num (addF (.finite q) (.finite q))) = .ok (.num .posInf)
    rw [hadd]
  constructor
  · show Except.ok (mulF (addF (.finite q) (.finite q)) (.finite 0)) = .ok .nan
    rw [hadd]
    with_unfolding_all decide
  · rw [simplifyF_binOp_eq, hfold, okBind,
      show simplifyF (.num (.finite 0)) = .ok (.num (.finite 0)) from rfl, okBind]
    with_unfolding_all decide

/-! The claims. -/

/-- C1 counterexample: `simplify` is NOT value-preserving at float
precision — for `t = (Number(1e308) + Number(1e308)) * Number(0)`,
`evaluate(t, {})` returns `nan` (the sum overflows to `inf`, and
`inf * 0.0 = nan`), while `simplify` first folds the sum to `Number(inf)`
and then the `x * 0 → 0` rule returns `Number(0)`, which evaluates to
`0 ≠ nan`. -/
theorem c1_counterexample :
    evaluateF (.binOp (.binOp (.num (.finite (10 ^ 308))) .add
          (.num (.finite (10 ^ 308)))) .mul (.num (.finite 0))) [] = .ok .nan ∧
    simplifyF (.binOp (.binOp (.num (.finite (10 ^ 308))) .add
          (.num (.finite (10 ^ 308)))) .mul (.num (.finite 0))) =
      .ok (.num (.finite 0)) ∧
    evaluateF (.num (.finite 0)) [] = .ok (.finite 0) ∧
    PyFloat.nan ≠ PyFloat.finite 0 := by
  obtain ⟨h1, h2⟩ := float_sat_example (q := 10 ^ 308) (by norm_num)
    (by rw [ovfBound]; norm_num)
  exact ⟨h1, h2, rfl, by with_unfolding_all decide⟩

/-- C1 (amended): `simplify` is value-preserving in the absence of float
saturation — for every tree `t` and binding `b` under which `evaluate(t, b)`
succeeds, `evaluate(simplify(t), b)` succeeds and returns the same value,
provided no intermediate operation overflows to `±inf` or produces `nan`
(formalised: preservation holds in exact arithmetic, every rule preserving
the value and the constant folds applying exactly the operations `evaluate`
applies). -/
theorem c1_simplify_value_preserving (t : Expr) (b : Bindings) (v : ℚ)
    (h : evaluate t b = .ok v) :
    ∃ t', Simplifier.simplify t = .ok t' ∧ evaluate t' b = .ok v :=
  Simplifier.simplify_preserves h

theorem c1_witness :
    ∃ t', Simplifier.simplify (.binOp (.num 1) .add (.var 'x')) = .ok t' ∧
      evaluate t' [('x', 2)] = .ok 3 :=
  c1_simplify_value_preserving _ _ _ (by with_unfolding_all decide)

/-- C2 counterexample: `simplify` is not total — on the parse of `"1/0"` the
`const/const` fold divides 1.0 by 0.0 and raises Python's
`ZeroDivisionError`. -/
theorem c2_counterexample :
    (parse_expression "1/0").bind Simplifier.simplify = .error .zeroDivisionError := by
  with_unfolding_all decide

/-- C2 (amended): `simplify` returns an Expression on every tree whose
operators avoid `/` and `^`; with those operators it can fail — the
`const/const` fold of `/` raises `ZeroDivisionError` whenever the folded
denominator is the literal 0 (and the numerator nonzero, so no earlier rule
fires), and the `const/const` fold of `^` raises `OverflowError` when the
power overflows (e.g. `Number(1e200) ^ Number(2)`). -/
theorem c2_amended :
    (∀ t : Expr, noDivPow t = true → ∃ t', Simplifier.simplify t = .ok t') ∧
    (∀ a : ℚ, a ≠ 0 →
      Simplifier.simplify (.binOp (.num a) .div (.num 0)) =
        .error .zeroDivisionError) ∧
    simplifyF (.binOp (.num (.finite (10 ^ 200))) .pow (.num (.finite 2))) =
      .error .overflowError := by
  have hpow : simplifyF (.binOp (.num (.finite (10 ^ 200))) .pow (.num (.finite 2))) =
      .error .overflowError := by
    show (powF (.finite (10 ^ 200)) (.finite 2)).map ExprF.num = .error .overflowError
    rw [powF_1e200_sq]
    rfl
  refine ⟨fun _ h => simplify_total_of_noDivPow h, fun a ha => ?_, hpow⟩
  rw [Simplifier.simplify_binOp_eq,
    show Simplifier.simplify (.num a) = .ok (.num a) from rfl, okBind,
    show Simplifier.simplify (.num 0) = .ok (.num 0) from rfl, okBind]
  simp [Simplifier.simplifyBinOp, numVal?, ha]

theorem c2_witness :
    (∃ t', Simplifier.simplify (.binOp (.var 'x') .add (.num 0)) = .ok t') ∧
    Simplifier.simplify (.binOp (.num 1) .div (.num 0)) =
      .error .zeroDivisionError :=
  ⟨c2_amended.1 _ (by decide), c2_amended.2.1 1 one_ne_zero⟩

/-- C3: parser precedence and associativity — `"2*3 + 4*5"` parses to the
left-folded `(2*3)+(4*5)` and evaluates to 26; `"2^3^2"` parses
right-associatively to `2^(3^2)` and evaluates to 512. -/
theorem c3_parser_precedence :
    parse_expression "2*3 + 4*5" =
      .ok (.binOp (.binOp (.num 2) .mul (.num 3)) .add (.binOp (.num 4) .mul (.num 5))) ∧
    evaluate (.binOp (.binOp (.num 2) .mul (.num 3)) .add (.binOp (.num 4) .mul (.num 5)))
      [] = .ok 26 ∧
    parse_expression "2^3^2" =
      .ok (.binOp (.num 2) .pow (.binOp (.num 3) .pow (.num 2))) ∧
    evaluate (.binOp (.num 2) .pow (.binOp (.num 3) .pow (.num 2))) [] = .ok 512 := by
  refine ⟨?_, ?_, ?_, ?_⟩ <;> with_unfolding_all decide

/-- C4 counterexample: the claimed equivalence "differentiating `f ^ r`
succeeds iff `r` is a `Number` literal" fails — with `f = x^x` and the
literal exponent `Number(2)`, differentiation still raises
`NotImplementedError`, because `f_prime` is computed eagerly. -/
theorem c4_counterexample :
    differentiate (.binOp (.binOp (.var 'x') .pow (.var 'x')) .pow (.num 2)) 'x' =
      .error .unsupportedOperation := by
  with_unfolding_all decide

/-- C4 (amended): differentiating `f ^ r` succeeds iff `r` is a `Number`
literal AND `f` itself is differentiable; on success with exponent
`Number(n)` the result is `f'` for `n = 1`, `Number(0)` for `n = 0`, and
`(Number(n) * (f ^ Number(n-1))) * f'` otherwise; a non-`Number` exponent
fails with `UnsupportedOperation`; and `differentiate` is total on `^`-free
trees. -/
theorem c4_amended :
    (∀ (f r : Expr) (v : Char),
      (∃ d, differentiate (.binOp f .pow r) v = .ok d) ↔
        ((∃ n : ℚ, r = .num n) ∧ ∃ d, differentiate f v = .ok d)) ∧
    (∀ (f : Expr) (n : ℚ) (v : Char) (d : Expr), differentiate f v = .ok d →
      differentiate (.binOp f .pow (.num n)) v =
        .ok (if n = 1 then d
             else if n = 0 then .num 0
             else .binOp (.binOp (.num n) .mul (.binOp f .pow (.num (n - 1)))) .mul d)) ∧
    (∀ (f r : Expr) (v : Char), (∀ n : ℚ, r ≠ .num n) →
      differentiate (.binOp f .pow r) v = .error .unsupportedOperation) ∧
    (∀ (t : Expr) (v : Char), powFree t = true → ∃ d, differentiate t v = .ok d) :=
  ⟨fun f r v => differentiate_pow_ok_iff f r v,
   fun f n v _ h => differentiate_pow_num f n v h,
   fun f r v h => differentiate_pow_not_num f r v h,
   fun _ v h => differentiate_total_of_powFree h v⟩

theorem c4_witness :
    differentiate (.binOp (.var 'x') .pow (.num 3)) 'x' =
      .ok (.binOp (.binOp (.num 3) .mul (.binOp (.var 'x') .pow (.num 2))) .mul (.num 1)) ∧
    (∃ d, differentiate (.binOp (.var 'x') .mul (.var 'y')) 'x' = .ok d) := by
  constructor
  · have h := c4_amended.2.1 (.var 'x') 3 'x' (.num 1) (by with_unfolding_all decide)
    rw [h, if_neg (by norm_num), if_neg (by norm_num),
      show (3 : ℚ) - 1 = 2 by norm_num]
  · exact c4_amended.2.2.2 _ 'x' (by decide)

/-- C5: `simplify` is idempotent — the single bottom-up pass reaches a fixed
point, so re-simplifying its (monadic) result changes nothing. -/
theorem c5_simplify_idempotent (t : Expr) :
    (Simplifier.simplify t).bind Simplifier.simplify = Simplifier.simplify t := by
  rcases h : Simplifier.simplify t with e | t'
  · rfl
  · show Simplifier.simplify t' = _
    rw [Simplifier.simplify_stable h]

/-- C6: the lexer does NOT fuse a `-` into a following numeric literal —
`tokenize("-2")` yields an `OPERATOR('-')` token and then `NUMBER(2.0)`
(the main scan loop only enters the number branch on a digit or `.`, so
`_parse_number`'s sign branch is unreachable), contradicting the claim and
the lexer's own docstrings. -/
theorem c6_lexer_no_minus_fusion :
    tokenize "-2" = .ok [.opTok '-', .number 2, .eof] ∧
    tokenize "3 -2" = .ok [.number 3, .opTok '-', .number 2, .eof] := by
  constructor <;> with_unfolding_all decide

/-- C7 counterexample: `simplify(Number(0) - Number(5))` does not constant
fold to `Number(-5)` — the `0 - x` branch fires first and keeps the node. -/
theorem c7_counterexample :
    Simplifier.simplify (.binOp (.num 0) .sub (.num 5)) =
      .ok (.binOp (.num 0) .sub (.num 5)) ∧
    (Expr.binOp (.num 0) .sub (.num 5)) ≠ .num (0 - 5) := by
  constructor
  · with_unfolding_all decide
  · decide

/-- C7 (amended): `const - const` folds to a constant unless the left
constant is 0 and the right is nonzero, in which case the `0 - x` rule keeps
the node `BinaryOp(Number(0), '-', x)`; for simplify-stable non-numeric `x`,
`x - 0` simplifies to `x` and `0 - x` is kept as a node. -/
theorem c7_amended :
    (∀ a b : ℚ, ¬(a = 0 ∧ b ≠ 0) →
      Simplifier.simplify (.binOp (.num a) .sub (.num b)) = .ok (.num (a - b))) ∧
    (∀ b : ℚ, b ≠ 0 →
      Simplifier.simplify (.binOp (.num 0) .sub (.num b)) =
        .ok (.binOp (.num 0) .sub (.num b))) ∧
    (∀ x : Expr, Simplifier.simplify x = .ok x → numVal? x = none →
      Simplifier.simplify (.binOp x .sub (.num 0)) = .ok x ∧
      Simplifier.simplify (.binOp (.num 0) .sub x) = .ok (.binOp (.num 0) .sub x)) := by
  refine ⟨fun a b h => ?_, fun b hb => ?_, fun x hx hnum => ⟨?_, ?_⟩⟩
  · rw [Simplifier.simplify_binOp_eq,
      show Simplifier.simplify (.num a) = .ok (.num a) from rfl, okBind,
      show Simplifier.simplify (.num b) = .ok (.num b) from rfl, okBind]
    by_cases hb : b = 0
    · subst hb
      simp [Simplifier.simplifyBinOp, numVal?]
    · have ha0 : a ≠ 0 := fun h0 => h ⟨h0, hb⟩
      simp [Simplifier.simplifyBinOp, numVal?, hb, ha0]
  · rw [Simplifier.simplify_binOp_eq,
      show Simplifier.simplify (.num 0) = .ok (.num 0) from rfl, okBind,
      show Simplifier.simplify (.num b) = .ok (.num b) from rfl, okBind]
    simp [Simplifier.simplifyBinOp, numVal?, hb]
  · rw [Simplifier.simplify_binOp_eq, hx, okBind,
      show Simplifier.simplify (.num 0) = .ok (.num 0) from rfl, okBind]
    simp [Simplifier.simplifyBinOp, numVal?]
  · rw [Simplifier.simplify_binOp_eq,
      show Simplifier.simplify (.num 0) = .ok (.num 0) from rfl, okBind, hx, okBind]
    simp only [Simplifier.simplifyBinOp, hnum]
    rw [if_neg (by simp), if_pos (show numVal? (Expr.num 0) = some 0 from rfl)]

theorem c7_witness :
    Simplifier.simplify (.binOp (.num 5) .sub (.num 3)) = .ok (.num 2) ∧
    Simplifier.simplify (.binOp (.var 'x') .sub (.num 0)) = .ok (.var 'x') := by
  constructor
  · have h := c7_amended.1 5 3 (by norm_num)
    rw [h, show (5 : ℚ) - 3 = 2 by norm_num]
  · exact (c7_amended.2.2 (.var 'x') rfl rfl).1

/-- C8 counterexample: the display/parse round trip fails on
`t = Number(-2)` — `str(-2.0) = "-2.0"` lexes as `OPERATOR('-')` then
`NUMBER(2.0)`, and the parser rejects the leading operator. -/
theorem c8_counterexample :
    parse_expression (toDisplayString (.num (-2))) =
      .error (.parseError "Expected number, variable, or left parenthesis") := by
  with_unfolding_all decide

/-- C8 (amended): for every tree built purely from `Number` — nonnegative,
finite-decimal, and equal to 0 or inside `[1e-4, 1e16)`, the range on which
Python's `str()` prints a plain decimal numeral rather than scientific
notation — `Variable` (alphabetic name), and `'+'`, `'-'`, `'*'`,
`parse_expression(to_display_string(t))` succeeds and re-parses to exactly
`t` (hence is semantically equal to `t` under every binding).  Outside that
range the round trip fails: `str(1e16) = "1e+16"` re-lexes as
`NUMBER(1.0) VARIABLE(e) OPERATOR(+) NUMBER(16.0)` and the parser rejects
it. -/
theorem c8_amended (t : Expr) (h : goodPM t = true) :
    parse_expression (toDisplayString t) = .ok t :=
  parse_expression_display h

theorem c8_witness :
    goodPM (.binOp (.binOp (.num 1) .add (.var 'x')) .mul (.num 2)) = true ∧
    parse_expression (toDisplayString
        (.binOp (.binOp (.num 1) .add (.var 'x')) .mul (.num 2))) =
      .ok (.binOp (.binOp (.num 1) .add (.var 'x')) .mul (.num 2)) :=
  ⟨by with_unfolding_all decide, c8_amended _ (by with_unfolding_all decide)⟩

/-- C9 counterexample: `evaluate` can fail even though no variable is
missing and no `/` node's right side is 0 — `Number(0) ^ Number(-1)` raises
Python's built-in `ZeroDivisionError`, which is neither `UndefinedVariable`
nor `DivisionByZero`; so "otherwise it returns a number" is false. -/
theorem c9_counterexample :
    evaluate (.binOp (.num 0) .pow (.num (-1))) [] = .error .zeroDivisionError ∧
    Err.zeroDivisionError ≠ Err.divisionByZero := by
  constructor
  · with_unfolding_all decide
  · decide

/-- C9 (amended): `evaluate` fails with `UndefinedVariable n` exactly as
claimed for a name `n` absent from the bindings, and with `DivisionByZero`
exactly as claimed for a `/` node whose right side evaluates to exactly 0
(its left side evaluating); but "otherwise it returns a number" is false —
`^` can also fail, with the unguarded Python `ZeroDivisionError` whenever
its base evaluates to 0 with a negative evaluated exponent, and with
`OverflowError` when the power overflows (e.g. `Number(1e200) ^
Number(2)`). -/
theorem c9_amended :
    (∀ (n : Char) (b : Bindings), b.lookup n = none →
      evaluate (.var n) b = .error (.undefinedVariable n)) ∧
    (∀ (l r : Expr) (b : Bindings) (lv : ℚ), evaluate l b = .ok lv →
      evaluate r b = .ok 0 →
      evaluate (.binOp l .div r) b = .error .divisionByZero) ∧
    (∀ (l r : Expr) (b : Bindings) (rv : ℚ), evaluate l b = .ok 0 →
      evaluate r b = .ok rv → rv < 0 →
      evaluate (.binOp l .pow r) b = .error .zeroDivisionError) ∧
    evaluateF (.binOp (.num (.finite (10 ^ 200))) .pow (.num (.finite 2))) [] =
      .error .overflowError :=
  ⟨fun _ _ h => evaluate_var_absent h,
   fun _ _ _ _ hl hr => evaluate_div_zero hl hr,
   fun _ _ _ _ hl hr hneg => evaluate_pow_zero_neg hl hr hneg,
   powF_1e200_sq⟩

theorem c9_witness :
    evaluate (.var 'y') [] = .error (.undefinedVariable 'y') ∧
    evaluate (.binOp (.var 'x') .div (.num 0)) [('x', 1)] =
      .error .divisionByZero ∧
    evaluate (.binOp (.num 0) .pow (.num (-2))) [] = .error .zeroDivisionError :=
  ⟨c9_amended.1 'y' [] rfl,
   c9_amended.2.1 _ _ _ 1 (by with_unfolding_all decide)
     (by with_unfolding_all decide),
   c9_amended.2.2.1 _ _ _ (-2) rfl rfl (by norm_num)⟩

/-- C10: the division-by-zero guard applies only to `/` nodes —
`Number(0) ^ Number(-1)` fails with the unguarded Python
`ZeroDivisionError`, distinct from `DivisionByZero`, and a `DivisionByZero`
error can only ever originate in a tree containing a `/` node. -/
theorem c10_pow_zero_division :
    evaluate (.binOp (.num 0) .pow (.num (-1))) [] = .error .zeroDivisionError ∧
    Err.zeroDivisionError ≠ Err.divisionByZero ∧
    (∀ (t : Expr) (b : Bindings), evaluate t b = .error .divisionByZero →
      containsDiv t = true) := by
  refine ⟨by with_unfolding_all decide, by decide,
    fun t b h => evaluate_divByZero_containsDiv h⟩

theorem c10_witness : containsDiv (.binOp (.num 1) .div (.num 0)) = true :=
  c10_pow_zero_division.2.2 _ [] (by with_unfolding_all decide)
